import Mathlib

/-! # pocolm, `src/lm-state.cc`: record codecs and the count builder

A shallow embedding of the functions of `lm-state.cc`.

* `int32` values are integers in the two's-complement 32-bit range; arithmetic on them
  wraps modulo `2^32`.
* A stream is the list of its bytes.  Scalars are laid out in the byte order of the
  machine that runs the code (little-endian here); both `Write` and `Read` copy raw
  memory, so they use the same order.
* `exit(1)` and a failed `assert` end the run: the embedded function then yields no
  value (`none`).  Assertions are compiled in (no `NDEBUG`).
* An access to a vector outside its bounds has no defined result: the embedded function
  then yields no value either.
* `rand()` is an explicit argument `rnd` of the functions that sample `Check`.
* `kBosSymbol` and `kEosSymbol` are declared outside `lm-state.cc`; they are arguments.
-/

namespace pocolm

/-! ## Machine integers and bytes -/

/-- A C++ `int32`: an integer in the range `[-2^31, 2^31)`. -/
@[ext]
structure int32 where
  val : Int
  lo : -2147483648 ≤ val
  hi : val < 2147483648
deriving DecidableEq

/-- Conversion of an integer to `int32`, keeping the low 32 bits (two's complement). -/
def int32.wrap (x : Int) : int32 :=
  ⟨(x + 2147483648) % 4294967296 - 2147483648, by omega, by omega⟩

instance (n : Nat) : OfNat int32 n := ⟨int32.wrap n⟩

instance : Inhabited int32 := ⟨int32.wrap 0⟩

instance : Add int32 := ⟨fun a b => int32.wrap (a.val + b.val)⟩

instance : Mul int32 := ⟨fun a b => int32.wrap (a.val * b.val)⟩

instance : LT int32 := ⟨fun a b => a.val < b.val⟩

instance : LE int32 := ⟨fun a b => a.val ≤ b.val⟩

instance (a b : int32) : Decidable (a < b) := inferInstanceAs (Decidable (a.val < b.val))

instance (a b : int32) : Decidable (a ≤ b) := inferInstanceAs (Decidable (a.val ≤ b.val))

/-- One byte of a stream. -/
abbrev byte := Fin 256

/-- The four bytes of an `int32` in memory, lowest byte first. -/
def int32.toBytes (x : int32) : List byte :=
  let n := (x.val % 4294967296).toNat
  [Fin.ofNat n, Fin.ofNat (n / 256), Fin.ofNat (n / 65536), Fin.ofNat (n / 16777216)]

/-- The `int32` stored in four bytes of memory, lowest byte first. -/
def int32.ofBytes (b0 b1 b2 b3 : byte) : int32 :=
  int32.wrap (b0.val + 256 * b1.val + 65536 * b2.val + 16777216 * b3.val)

/-- The memory image of an array of `int32`. -/
def encodeInts : List int32 → List byte
  | [] => []
  | x :: xs => x.toBytes ++ encodeInts xs

/-- An array of `int32` read back from its memory image (`reinterpret_cast`); bytes
that do not fill a whole element are not part of any element. -/
def decodeInts : List byte → List int32
  | b0 :: b1 :: b2 :: b3 :: rest => int32.ofBytes b0 b1 b2 b3 :: decodeInts rest
  | _ => []

/-- The `int32` words of an array of `std::pair<int32,int32>` (8 bytes per pair:
`first`, then `second`). -/
def flattenPairs : List (int32 × int32) → List int32
  | [] => []
  | c :: cs => c.1 :: c.2 :: flattenPairs cs

/-- An array of `std::pair<int32,int32>` seen through its `int32` words. -/
def pairUp : List int32 → List (int32 × int32)
  | a :: b :: rest => (a, b) :: pairUp rest
  | _ => []

/-! ## Streams and loops -/

/-- An input stream: the bytes that have not been consumed yet. -/
abbrev istream := List byte

/-- The call `is.read(buf, n)`: the bytes obtained (`gcount()` is their number) and the
stream that is left. -/
def istream.read (is : istream) (n : Nat) : List byte × istream :=
  (is.take n, is.drop n)

/-- Running `body i` for `i = start, start+1, ...`, `fuel` times, stopping at the
first failure. -/
def forLoopFrom {σ : Type} (body : Nat → σ → Option σ) : Nat → Nat → σ → Option σ
  | 0, _, s => some s
  | fuel + 1, i, s => (body i s).bind (forLoopFrom body fuel (i + 1))

/-- The loop `for (int32 i = 0; i < n; i++) body`. -/
def forLoop {σ : Type} (n : int32) (body : Nat → σ → Option σ) (s : σ) : Option σ :=
  forLoopFrom body n.val.toNat 0 s

/-- The assignment `buffer[idx] = v` on a heap array; an index outside the array has
no defined result. -/
def store (buffer : List int32) (idx : int32) (v : int32) : Option (List int32) :=
  if 0 ≤ idx.val ∧ idx.val.toNat < buffer.length then some (buffer.set idx.val.toNat v)
  else none

/-! ## IntLmState -/

/-- The class `IntLmState`: a history and a list of `(word, count)` pairs. -/
structure IntLmState where
  history : List int32
  counts : List (int32 × int32)
deriving DecidableEq

/-- The history loop of `Check` (shared by the three record classes):
`assert(history[i] > 0 && history[i] != kEosSymbol)` for each `i`. -/
def checkHistory (kEosSymbol : int32) : List int32 → Bool
  | [] => true
  | h :: rest => decide (h > 0 ∧ h ≠ kEosSymbol) && checkHistory kEosSymbol rest

/-- The counts loop of `IntLmState::Check`; the tail of the list is `counts[i+1..]`. -/
def IntLmState.checkCounts (kBosSymbol : int32) : List (int32 × int32) → Bool
  | [] => true
  | c :: rest =>
    decide (c.1 > 0 ∧ c.1 ≠ kBosSymbol) &&
    decide (c.2 > 0) &&
    (match rest with
     | [] => true
     | d :: _ => decide (c.1 < d.1)) &&
    IntLmState.checkCounts kBosSymbol rest

/-- Function `IntLmState::Check`: `true` when no assertion fails. -/
def IntLmState.Check (kBosSymbol kEosSymbol : int32) (s : IntLmState) : Bool :=
  checkHistory kEosSymbol s.history &&
  decide (s.counts.length > 0) &&
  IntLmState.checkCounts kBosSymbol s.counts

/-- The record invariant of the Int variant, in the words of the specification: every
history element is positive and is not the end-marker; the count list is non-empty; every
entry has a positive word that is not the begin-marker and a positive count; the words are
strictly ascending. -/
def IntLmState.Invariant (kBosSymbol kEosSymbol : int32) (s : IntLmState) : Prop :=
  (∀ h ∈ s.history, h > 0 ∧ h ≠ kEosSymbol) ∧
  s.counts ≠ [] ∧
  (∀ c ∈ s.counts, c.1 > 0 ∧ c.1 ≠ kBosSymbol) ∧
  (∀ c ∈ s.counts, c.2 > 0) ∧
  List.Pairwise (fun a b => a.1 < b.1) s.counts

/-- Function `IntLmState::Write`: the bytes given to the stream, or `none` when the run ends in
a failed assertion or leaves defined behaviour.  The stream itself accepts every byte
(`os.good()` holds). -/
def IntLmState.Write (kBosSymbol kEosSymbol : int32) (rnd : Nat) (s : IntLmState) :
    Option (List byte) :=
  if rnd % 2 = 0 ∧ IntLmState.Check kBosSymbol kEosSymbol s = false then none else
  let history_size : int32 := int32.wrap s.history.length
  let num_counts : int32 := int32.wrap s.counts.length
  let buffer_size : int32 := 2 + history_size + 2 * num_counts
  if ¬ (num_counts > 0) then none else
  if buffer_size < 0 then none else
  let buffer : List int32 := List.replicate buffer_size.val.toNat default
  (store buffer 0 history_size).bind fun buffer =>
  (store buffer 1 num_counts).bind fun buffer =>
  (forLoop history_size
    (fun i buffer => (s.history.get? i).bind fun h => store buffer (2 + int32.wrap i) h)
    buffer).bind fun buffer =>
  (forLoop num_counts
    (fun i buffer => (s.counts.get? i).bind fun c =>
      (store buffer (2 + history_size + 2 * int32.wrap i) c.1).bind fun buffer =>
      store buffer (2 + history_size + 2 * int32.wrap i + 1) c.2)
    buffer).bind fun buffer =>
  some (encodeInts buffer)

/-- The layout of the Int record: the 32-bit words `historyLen`, `numCounts`, the
history, then `word, count` for each entry. -/
def IntLmState.words (s : IntLmState) : List int32 :=
  int32.wrap s.history.length :: int32.wrap s.counts.length ::
    (s.history ++ flattenPairs s.counts)

/-- Function `IntLmState::Read`: the record read (`none` when the run ends in `exit(1)` or a
failed assertion) and the stream that is left. -/
def IntLmState.Read (kBosSymbol kEosSymbol : int32) (rnd : Nat) (is : istream) :
    Option IntLmState × istream :=
  let header := istream.read is (4 * 2)
  if header.1.length ≠ 4 * 2 then (none, header.2) else
  let header_buffer := decodeInts header.1
  let history_size : int32 := header_buffer.getD 0 default
  let num_counts : int32 := header_buffer.getD 1 default
  if ¬ (history_size ≥ 0 ∧ num_counts > 0) then (none, header.2) else
  let hist := if history_size > 0 then istream.read header.2 (4 * history_size.val.toNat)
              else ([], header.2)
  if history_size > 0 ∧ hist.1.length ≠ 4 * history_size.val.toNat then (none, hist.2) else
  let history := decodeInts hist.1
  let cnt := istream.read hist.2 (4 * 2 * num_counts.val.toNat)
  if cnt.1.length ≠ 4 * 2 * num_counts.val.toNat then (none, cnt.2) else
  let counts := pairUp (decodeInts cnt.1)
  let s : IntLmState := ⟨history, counts⟩
  if rnd % 10 = 0 ∧ IntLmState.Check kBosSymbol kEosSymbol s = false then (none, cnt.2)
  else (some s, cnt.2)

/-! ## FloatLmState and GeneralLmState -/

/-- A C++ `float`, given by the 32 bits of its single-precision encoding. -/
structure float where
  bits : Fin 4294967296
deriving DecidableEq

/-- The comparison `f > 0` on a `float`: sign bit clear, not zero and not a NaN, that is
an encoding in `(0, 0x7F800000]`. -/
def float.isPositive (f : float) : Bool :=
  decide (0 < f.bits.val ∧ f.bits.val ≤ 2139095040)

/-- The class `FloatLmState`. -/
structure FloatLmState where
  history : List int32
  total : float
  discount : float
  counts : List (int32 × float)
deriving DecidableEq

/-- The counts loop of `FloatLmState::Check`. -/
def FloatLmState.checkCounts (kBosSymbol : int32) : List (int32 × float) → Bool
  | [] => true
  | c :: rest =>
    decide (c.1 > 0 ∧ c.1 ≠ kBosSymbol) &&
    (match rest with
     | [] => true
     | d :: _ => decide (c.1 < d.1)) &&
    FloatLmState.checkCounts kBosSymbol rest

/-- Function `FloatLmState::Check`: `true` when no assertion fails. -/
def FloatLmState.Check (kBosSymbol kEosSymbol : int32) (s : FloatLmState) : Bool :=
  checkHistory kEosSymbol s.history &&
  decide (s.counts.length > 0) &&
  FloatLmState.checkCounts kBosSymbol s.counts

/-- What `FloatLmState::Check` asserts: every history element is positive and is not the
end-marker; the count list is non-empty; every word is positive and is not the
begin-marker; the words are strictly ascending.  The count values, `total` and `discount`
do not occur. -/
def FloatLmState.Invariant (kBosSymbol kEosSymbol : int32) (s : FloatLmState) : Prop :=
  (∀ h ∈ s.history, h > 0 ∧ h ≠ kEosSymbol) ∧
  s.counts ≠ [] ∧
  (∀ c ∈ s.counts, c.1 > 0 ∧ c.1 ≠ kBosSymbol) ∧
  List.Pairwise (fun a b => a.1 < b.1) s.counts

/-- The class `GeneralLmState`, over the class `Count` of `count.h`. -/
structure GeneralLmState (Count : Type) where
  history : List int32
  counts : List (int32 × Count)

/-- The counts loop of `GeneralLmState::Check`. -/
def GeneralLmState.checkCounts {Count : Type} (kBosSymbol : int32) :
    List (int32 × Count) → Bool
  | [] => true
  | c :: rest =>
    decide (c.1 > 0 ∧ c.1 ≠ kBosSymbol) &&
    (match rest with
     | [] => true
     | d :: _ => decide (c.1 < d.1)) &&
    GeneralLmState.checkCounts kBosSymbol rest

/-- Function `GeneralLmState::Check`: `true` when no assertion fails. -/
def GeneralLmState.Check {Count : Type} (kBosSymbol kEosSymbol : int32)
    (s : GeneralLmState Count) : Bool :=
  checkHistory kEosSymbol s.history &&
  decide (s.counts.length > 0) &&
  GeneralLmState.checkCounts kBosSymbol s.counts

/-- The memory layout of `std::pair<int32, Count>`, which `count.h` and the compiler
fix: the size of one pair and the pair stored in that many bytes. -/
structure PairLayout (Count : Type) where
  pair_size : Nat
  ofBytes : List byte → int32 × Count

/-- Function `GeneralLmState::Read`: the record read (`none` when the run ends in `exit(1)` or a
failed assertion) and the stream that is left. -/
def GeneralLmState.Read {Count : Type} (layout : PairLayout Count)
    (kBosSymbol kEosSymbol : int32) (rnd : Nat) (is : istream) :
    Option (GeneralLmState Count) × istream :=
  let r1 := istream.read is 4
  if r1.1.length ≠ 4 then (none, r1.2) else
  let history_size : int32 := (decodeInts r1.1).getD 0 default
  if history_size > 10000 ∨ history_size < 0 then (none, r1.2) else
  let r2 := istream.read r1.2 4
  if r2.1.length ≠ 4 then (none, r2.2) else
  let num_counts : int32 := (decodeInts r2.1).getD 0 default
  if num_counts ≤ 0 then (none, r2.2) else
  let hist := if history_size > 0 then istream.read r2.2 (4 * history_size.val.toNat)
              else ([], r2.2)
  if history_size > 0 ∧ hist.1.length ≠ 4 * history_size.val.toNat then (none, hist.2) else
  let history := decodeInts hist.1
  let expected_bytes := layout.pair_size * num_counts.val.toNat
  let cnt := istream.read hist.2 expected_bytes
  if cnt.1.length ≠ expected_bytes then (none, cnt.2) else
  let counts := (List.range num_counts.val.toNat).map fun i =>
    layout.ofBytes ((cnt.1.drop (i * layout.pair_size)).take layout.pair_size)
  let s : GeneralLmState Count := ⟨history, counts⟩
  if rnd % 10 = 0 ∧ GeneralLmState.Check kBosSymbol kEosSymbol s = false then (none, cnt.2)
  else (some s, cnt.2)

/-! ## GeneralLmStateBuilder -/

/-- The part of class `Count` (`count.h`) that the builder uses. -/
structure CountOps (Count : Type) where
  /-- The constructor `Count(float)`. -/
  ofFloat : float → Count
  /-- The constructor `Count(float scale, int32 num_pieces)`. -/
  ofPieces : float → int32 → Count
  /-- The method `Add(float)`. -/
  addFloat : Count → float → Count
  /-- The method `Add(float scale, int32 num_pieces)`. -/
  addPieces : Count → float → int32 → Count
  /-- The method `Add(const Count&)`. -/
  add : Count → Count → Count


/-- The class `GeneralLmStateBuilder`.  `word_to_pos` is the hash map
`unordered_map<int32, int32>`, as the list of its `(word, position)` entries with one entry
per word (`insert` adds an entry only for a word that has none); `counts` is the vector of
accumulators.  `Output` sorts the entries, so the order in which the map enumerates them
does not matter. -/
structure GeneralLmStateBuilder (Count : Type) where
  word_to_pos : List (int32 × int32)
  counts : List Count

namespace GeneralLmStateBuilder

variable {Count : Type}

/-- A newly constructed builder: both containers are empty. -/
def create : GeneralLmStateBuilder Count := ⟨[], []⟩

/-- Function `GeneralLmStateBuilder::Clear`. -/
def Clear (_b : GeneralLmStateBuilder Count) : GeneralLmStateBuilder Count := ⟨[], []⟩

/-- The element `counts[pos]` of the vector for an `int32` index.  The index is converted to
`size_t`, so a negative `pos` lies beyond every size; outside the vector the access has no
defined result (`none`). -/
def vectorAt (counts : List Count) (pos : int32) : Option Count :=
  if pos.val < 0 then none else counts.get? pos.val.toNat

/-- The body shared by the three overloads of `AddCount`:
`int32 cur_counts_size = counts.size()` (the size converted to `int32`), `word_to_pos.insert`
of `(word, cur_counts_size)`, then `push_back` of a new accumulator when the word was
inserted, or `assert(pos < cur_counts_size)` on `int32` and the update of `counts[pos]` when
it was present.  `none`: the assertion fails, or `counts[pos]` is outside the vector. -/
def addWith (seed : Count) (add : Count → Count) (b : GeneralLmStateBuilder Count)
    (word : int32) : Option (GeneralLmStateBuilder Count) :=
  let cur_counts_size : int32 := int32.wrap (b.counts.length : Int)
  match b.word_to_pos.lookup word with
  | none =>
    some ⟨b.word_to_pos ++ [(word, cur_counts_size)], b.counts ++ [seed]⟩
  | some pos =>
    if pos < cur_counts_size then
      (vectorAt b.counts pos).map fun c =>
        ⟨b.word_to_pos, b.counts.set pos.val.toNat (add c)⟩
    else none

/-- The accumulator stored at `counts[pos]` for `word`, if the builder has one. -/
def value (b : GeneralLmStateBuilder Count) (word : int32) : Option Count :=
  (b.word_to_pos.lookup word).bind (vectorAt b.counts)

/-- The representation invariant of the builder while no size has left the `int32` range:
the index has one entry per word, its positions are `0, 1, ..., counts.size() - 1`, each
once (here in the order in which the words came), and `counts.size()` is at most `2^31`. -/
def Inv (b : GeneralLmStateBuilder Count) : Prop :=
  (b.word_to_pos.map Prod.fst).Nodup ∧
  b.word_to_pos.map Prod.snd =
    (List.range b.counts.length).map (fun i : Nat => int32.wrap (i : Int)) ∧
  b.counts.length ≤ 2147483648

/-- Function `GeneralLmStateBuilder::AddCount(int32 word, float count)`. -/
def AddCount (ops : CountOps Count) (b : GeneralLmStateBuilder Count) (word : int32)
    (count : float) : Option (GeneralLmStateBuilder Count) :=
  addWith (ops.ofFloat count) (fun c => ops.addFloat c count) b word

/-- Function `GeneralLmStateBuilder::AddCount(int32 word, float scale, int32 num_pieces)`. -/
def AddCountScaled (ops : CountOps Count) (b : GeneralLmStateBuilder Count) (word : int32)
    (scale : float) (num_pieces : int32) : Option (GeneralLmStateBuilder Count) :=
  addWith (ops.ofPieces scale num_pieces) (fun c => ops.addPieces c scale num_pieces) b word

/-- Function `GeneralLmStateBuilder::AddCount(int32 word, const Count &count)`. -/
def AddCountCount (ops : CountOps Count) (b : GeneralLmStateBuilder Count) (word : int32)
    (count : Count) : Option (GeneralLmStateBuilder Count) :=
  addWith count (fun c => ops.add c count) b word

/-- The loop of `GeneralLmStateBuilder::AddCounts(const IntLmState &lm_state, float scale)`
over `lm_state.counts`. -/
def AddCountsLoop (ops : CountOps Count) (scale : float) :
    List (int32 × int32) → GeneralLmStateBuilder Count → Option (GeneralLmStateBuilder Count)
  | [], b => some b
  | e :: rest, b => (AddCountScaled ops b e.1 scale e.2).bind (AddCountsLoop ops scale rest)

/-- Function `GeneralLmStateBuilder::AddCounts(const IntLmState &lm_state, float scale)`. -/
def AddCounts (ops : CountOps Count) (b : GeneralLmStateBuilder Count)
    (lm_state : IntLmState) (scale : float) : Option (GeneralLmStateBuilder Count) :=
  AddCountsLoop ops scale lm_state.counts b

/-- The loop of `GeneralLmStateBuilder::AddCounts(const GeneralLmState &lm_state)`. -/
def AddCountsGeneralLoop (ops : CountOps Count) :
    List (int32 × Count) → GeneralLmStateBuilder Count → Option (GeneralLmStateBuilder Count)
  | [], b => some b
  | e :: rest, b => (AddCountCount ops b e.1 e.2).bind (AddCountsGeneralLoop ops rest)

/-- Function `GeneralLmStateBuilder::AddCounts(const GeneralLmState &lm_state)`. -/
def AddCountsGeneral (ops : CountOps Count) (b : GeneralLmStateBuilder Count)
    (lm_state : GeneralLmState Count) : Option (GeneralLmStateBuilder Count) :=
  AddCountsGeneralLoop ops lm_state.counts b


/-- The order `operator<` of `std::pair<int32,int32>` (lexicographic, both components
compared as `int32`), as the non-strict order that `std::sort` establishes. -/
def pairLE (a b : int32 × int32) : Prop :=
  a.1 < b.1 ∨ (a.1 = b.1 ∧ a.2 ≤ b.2)

instance : DecidableRel pairLE := fun a b =>
  inferInstanceAs (Decidable (a.1 < b.1 ∨ (a.1 = b.1 ∧ a.2 ≤ b.2)))

instance : IsTotal (int32 × int32) pairLE where
  total a b := by
    obtain ⟨a1, a2⟩ := a
    obtain ⟨b1, b2⟩ := b
    simp only [pairLE, int32.ext_iff]
    show (a1.val < b1.val ∨ (_ ∧ a2.val ≤ b2.val)) ∨ (b1.val < a1.val ∨ (_ ∧ b2.val ≤ a2.val))
    omega

instance : IsTrans (int32 × int32) pairLE where
  trans a b c := by
    obtain ⟨a1, a2⟩ := a
    obtain ⟨b1, b2⟩ := b
    obtain ⟨c1, c2⟩ := c
    simp only [pairLE, int32.ext_iff]
    show (a1.val < b1.val ∨ (_ ∧ a2.val ≤ b2.val)) → (b1.val < c1.val ∨ (_ ∧ b2.val ≤ c2.val)) →
      (a1.val < c1.val ∨ (_ ∧ a2.val ≤ c2.val))
    omega

instance : IsAntisymm (int32 × int32) pairLE where
  antisymm a b := by
    obtain ⟨a1, a2⟩ := a
    obtain ⟨b1, b2⟩ := b
    simp only [pairLE, int32.ext_iff, Prod.mk.injEq]
    show (a1.val < b1.val ∨ (_ ∧ a2.val ≤ b2.val)) → (b1.val < a1.val ∨ (_ ∧ b2.val ≤ a2.val)) → _
    omega

/-- Function `GeneralLmStateBuilder::Output`: the list stored in `*output`, or `none` when the
assertion fails or a vector is indexed outside its bounds.  Round `i` of the loop fixes
`(*output)[i]`; `std::sort` is any sort by `operator<`, here insertion sort. -/
def Output (b : GeneralLmStateBuilder Count) : Option (List (int32 × Count)) :=
  let size := b.counts.length
  if b.counts.length ≠ b.word_to_pos.length then none else
  let pairs := List.insertionSort pairLE b.word_to_pos
  forLoopFrom
    (fun i output => (pairs.get? i).bind fun p => (vectorAt b.counts p.2).map fun c =>
      output ++ [(p.1, c)])
    size 0 []

/-- The index entries that `AddCount` makes for the words `ws`, none of which is in the
index yet, when `counts.size()` is `n` before the first of them. -/
def freshIndex (n : Nat) : List int32 → List (int32 × int32)
  | [] => []
  | w :: ws => (w, int32.wrap (n : Int)) :: freshIndex (n + 1) ws

/-- The words `0, 1, ..., n - 1` as `int32` (conversion keeps the low 32 bits). -/
def manyWords (n : Nat) : List int32 :=
  (List.range n).map fun i : Nat => int32.wrap (i : Int)

/-- The argument of one `AddCount` call besides the word: a raw count, a scale with a
number of pieces, or a whole `Count`. -/
inductive Contribution (Count : Type) where
  | raw (count : float)
  | scaled (scale : float) (num_pieces : int32)
  | full (count : Count)

/-- The accumulator that `AddCount` pushes for a new word. -/
def seed (ops : CountOps Count) : Contribution Count → Count
  | .raw count => ops.ofFloat count
  | .scaled scale num_pieces => ops.ofPieces scale num_pieces
  | .full count => count

/-- The accumulator that `AddCount` leaves at `counts[pos]` for a word already present. -/
def merge (ops : CountOps Count) (c : Count) : Contribution Count → Count
  | .raw count => ops.addFloat c count
  | .scaled scale num_pieces => ops.addPieces c scale num_pieces
  | .full count => ops.add c count

/-- One call on a builder. -/
inductive Call (Count : Type) where
  | addCount (word : int32) (count : float)
  | addCountScaled (word : int32) (scale : float) (num_pieces : int32)
  | addCountCount (word : int32) (count : Count)
  | addCounts (lm_state : IntLmState) (scale : float)
  | addCountsGeneral (lm_state : GeneralLmState Count)

/-- The effect of one call. -/
def Call.apply (ops : CountOps Count) (b : GeneralLmStateBuilder Count) :
    Call Count → Option (GeneralLmStateBuilder Count)
  | .addCount word count => AddCount ops b word count
  | .addCountScaled word scale num_pieces => AddCountScaled ops b word scale num_pieces
  | .addCountCount word count => AddCountCount ops b word count
  | .addCounts lm_state scale => AddCounts ops b lm_state scale
  | .addCountsGeneral lm_state => AddCountsGeneral ops b lm_state

/-- The `AddCount` calls that a call amounts to, in order: `AddCounts` makes one per
entry of the record. -/
def Call.entries : Call Count → List (int32 × Contribution Count)
  | .addCount word count => [(word, .raw count)]
  | .addCountScaled word scale num_pieces => [(word, .scaled scale num_pieces)]
  | .addCountCount word count => [(word, .full count)]
  | .addCounts lm_state scale => lm_state.counts.map fun e => (e.1, .scaled scale e.2)
  | .addCountsGeneral lm_state => lm_state.counts.map fun e => (e.1, .full e.2)

/-- A sequence of `AddCount` calls, one per `(word, contribution)` entry. -/
def addAll (ops : CountOps Count) :
    List (int32 × Contribution Count) → GeneralLmStateBuilder Count →
      Option (GeneralLmStateBuilder Count)
  | [], b => some b
  | e :: es, b =>
    (addWith (seed ops e.2) (fun c => merge ops c e.2) b e.1).bind (addAll ops es)

/-- The accumulator of `word` after one more `AddCount` call `e`, given the accumulator
`o` it had before (`none`: the word was absent). -/
def step (ops : CountOps Count) (word : int32) (o : Option Count)
    (e : int32 × Contribution Count) : Option Count :=
  if e.1 = word then
    some (match o with
      | none => seed ops e.2
      | some c => merge ops c e.2)
  else o

/-- The effect of a sequence of calls, first call first. -/
def run (ops : CountOps Count) :
    List (Call Count) → GeneralLmStateBuilder Count → Option (GeneralLmStateBuilder Count)
  | [], b => some b
  | c :: cs, b => (c.apply ops b).bind (run ops cs)

/-- An instance of the `Count` interface over the integers, for evaluating the builder:
a count is the sum of the bit patterns merged into it. -/
def intOps : CountOps Int where
  ofFloat f := f.bits.val
  ofPieces s n := s.bits.val * n.val
  addFloat c f := c + f.bits.val
  addPieces c s n := c + s.bits.val * n.val
  add c d := c + d

/-- The value that a contribution adds under `intOps`. -/
def intVal : Contribution Int → Int
  | .raw count => count.bits.val
  | .scaled scale num_pieces => scale.bits.val * num_pieces.val
  | .full count => count

end GeneralLmStateBuilder

/-! ## Reading several records -/

/-- Calling `IntLmState::Read` once per draw of the list, each call on the stream that the
call before it left: the records in the order read and the stream left at the end, or no
records as soon as one call fails. -/
def IntLmState.ReadAll (kBosSymbol kEosSymbol : int32) :
    List Nat → istream → Option (List IntLmState) × istream
  | [], is => (some [], is)
  | rnd :: rnds, is =>
    match IntLmState.Read kBosSymbol kEosSymbol rnd is with
    | (none, is1) => (none, is1)
    | (some s, is1) =>
      match IntLmState.ReadAll kBosSymbol kEosSymbol rnds is1 with
      | (none, is2) => (none, is2)
      | (some l, is2) => (some (s :: l), is2)


/-! ## FloatLmState: Write and Read -/

/-- The four bytes of a `float` in memory, lowest byte first. -/
def float.toBytes (f : float) : List byte :=
  let n := f.bits.val
  [Fin.ofNat n, Fin.ofNat (n / 256), Fin.ofNat (n / 65536), Fin.ofNat (n / 16777216)]

/-- The `float` stored in four bytes of memory, lowest byte first. -/
def float.ofBytes (b0 b1 b2 b3 : byte) : float :=
  ⟨Fin.ofNat (b0.val + 256 * b1.val + 65536 * b2.val + 16777216 * b3.val)⟩

/-- A `float` variable after `is.read` stored the given bytes in it; fewer than four
bytes do not make a value. -/
def decodeFloat : List byte → float
  | [b0, b1, b2, b3] => float.ofBytes b0 b1 b2 b3
  | _ => ⟨0⟩

/-- The memory image of an array of `std::pair<int32, float>`: 8 bytes per pair, `first`
then `second`. -/
def encodeFloatPairs : List (int32 × float) → List byte
  | [] => []
  | c :: cs => c.1.toBytes ++ (c.2.toBytes ++ encodeFloatPairs cs)

/-- An array of `std::pair<int32, float>` read back from its memory image. -/
def decodeFloatPairs : List byte → List (int32 × float)
  | b0 :: b1 :: b2 :: b3 :: b4 :: b5 :: b6 :: b7 :: rest =>
    (int32.ofBytes b0 b1 b2 b3, float.ofBytes b4 b5 b6 b7) :: decodeFloatPairs rest
  | _ => []

/-- An input stream with its state flag: the bytes left and the value of `good()`. -/
structure istreamState where
  bytes : istream
  good : Bool

/-- The call `is.read(buf, n)` on a stream with its state flag.  A stream that is not good
yields nothing.  A read that finds fewer than `n` bytes takes them all and sets `eofbit`
and `failbit`, so that `good()` is false (and `eof()` true) from then on. -/
def istreamState.read (is : istreamState) (n : Nat) : List byte × istreamState :=
  if is.good = false then ([], is)
  else if n ≤ is.bytes.length then (is.bytes.take n, ⟨is.bytes.drop n, true⟩)
  else (is.bytes, ⟨[], false⟩)

/-- Function `FloatLmState::Write`: the bytes given to the stream, or `none` when the
assertion fails.  The stream itself accepts every byte (`os.good()` holds).  The two array
writes copy `history_size` and `num_counts` elements from the start of the vectors. -/
def FloatLmState.Write (s : FloatLmState) : Option (List byte) :=
  let history_size : int32 := int32.wrap s.history.length
  let num_counts : int32 := int32.wrap s.counts.length
  if ¬ (num_counts > 0) then none else
  some (history_size.toBytes ++ (num_counts.toBytes ++ (s.total.toBytes ++
    (s.discount.toBytes ++
      ((if history_size > 0 then encodeInts (s.history.take history_size.val.toNat) else []) ++
        encodeFloatPairs (s.counts.take num_counts.val.toNat))))))

/-- Function `FloatLmState::Read`: the record read (`none` when the run ends in `exit(1)`
or a failed assertion) and the bytes that are left.  The stream is good when the call
starts; `!is.good() || is.eof()` is `!is.good()`, since `eofbit` makes `good()` false. -/
def FloatLmState.Read (kBosSymbol kEosSymbol : int32) (rnd : Nat) (is : istream) :
    Option FloatLmState × istream :=
  let r1 := istreamState.read ⟨is, true⟩ 4
  let r2 := istreamState.read r1.2 4
  if r2.2.good = false then (none, r2.2.bytes) else
  let history_size : int32 := (decodeInts r1.1).getD 0 default
  let num_counts : int32 := (decodeInts r2.1).getD 0 default
  if history_size < 0 ∨ history_size > 10000 ∨ num_counts ≤ 0 then (none, r2.2.bytes) else
  let r3 := istreamState.read r2.2 4
  let r4 := istreamState.read r3.2 4
  let total := decodeFloat r3.1
  let discount := decodeFloat r4.1
  let hist := if history_size > 0 then istreamState.read r4.2 (4 * history_size.val.toNat)
              else ([], r4.2)
  let history := decodeInts hist.1
  let cnt := istreamState.read hist.2 (8 * num_counts.val.toNat)
  let counts := decodeFloatPairs cnt.1
  if cnt.2.good = false then (none, cnt.2.bytes) else
  let s : FloatLmState := ⟨history, total, discount, counts⟩
  if rnd % 10 = 0 ∧ FloatLmState.Check kBosSymbol kEosSymbol s = false then (none, cnt.2.bytes)
  else (some s, cnt.2.bytes)


/-! ## Builder: runs that also clear -/

namespace GeneralLmStateBuilder

variable {Count : Type}

/-- One step of a client of the builder: a call that adds counts, or `Clear`. -/
inductive Step (Count : Type) where
  | call (c : Call Count)
  | clear

/-- The effect of one step. -/
def Step.apply (ops : CountOps Count) (b : GeneralLmStateBuilder Count) :
    Step Count → Option (GeneralLmStateBuilder Count)
  | .call c => c.apply ops b
  | .clear => some (Clear b)

/-- The effect of a sequence of steps, first step first; `none` when an assertion of
`AddCount` fails on the way. -/
def runSteps (ops : CountOps Count) :
    List (Step Count) → GeneralLmStateBuilder Count → Option (GeneralLmStateBuilder Count)
  | [], b => some b
  | st :: sts, b => (st.apply ops b).bind (runSteps ops sts)

end GeneralLmStateBuilder


/-! ## Machine integers: evaluation lemmas -/

theorem int32.wrap_val (x : Int) :
    (int32.wrap x).val = (x + 2147483648) % 4294967296 - 2147483648 := rfl

theorem int32.add_def (a b : int32) : a + b = int32.wrap (a.val + b.val) := rfl

theorem int32.mul_def (a b : int32) : a * b = int32.wrap (a.val * b.val) := rfl

theorem int32.ofNat_def (n : Nat) : (OfNat.ofNat n : int32) = int32.wrap (n : Int) := rfl

theorem int32.lt_def (a b : int32) : a < b ↔ a.val < b.val := Iff.rfl

theorem int32.le_def (a b : int32) : a ≤ b ↔ a.val ≤ b.val := Iff.rfl

theorem int32.default_def : (default : int32) = int32.wrap 0 := rfl

theorem int32.wrap_of_range (x : Int) (lo : -2147483648 ≤ x) (hi : x < 2147483648) :
    (int32.wrap x).val = x := by
  rw [int32.wrap_val]; omega

theorem int32.wrap_self (x : int32) : int32.wrap x.val = x := by
  apply int32.ext
  exact int32.wrap_of_range x.val x.lo x.hi

theorem int32.toBytes_length (x : int32) : x.toBytes.length = 4 := rfl

theorem decodeInts_toBytes_append (x : int32) (rest : List byte) :
    decodeInts (x.toBytes ++ rest) = x :: decodeInts rest := by
  have hlo := x.lo
  have hhi := x.hi
  have h : int32.ofBytes (Fin.ofNat (x.val % 4294967296).toNat)
      (Fin.ofNat ((x.val % 4294967296).toNat / 256))
      (Fin.ofNat ((x.val % 4294967296).toNat / 65536))
      (Fin.ofNat ((x.val % 4294967296).toNat / 16777216)) = x := by
    apply int32.ext
    simp only [int32.ofBytes, int32.wrap_val, Fin.ofNat, Nat.succ_eq_add_one, Nat.reduceAdd]
    omega
  simp only [int32.toBytes, List.cons_append, List.nil_append, decodeInts, h]
  rfl

theorem decodeInts_encodeInts_append (xs : List int32) (rest : List byte)
    (hrest : rest.length < 4) : decodeInts (encodeInts xs ++ rest) = xs := by
  induction xs with
  | nil =>
    match rest, hrest with
    | [], _ => rfl
    | [_], _ => rfl
    | [_, _], _ => rfl
    | [_, _, _], _ => rfl
    | _ :: _ :: _ :: _ :: _, h => simp at h; omega
  | cons x xs ih =>
    rw [encodeInts, List.append_assoc, decodeInts_toBytes_append, ih]

theorem decodeInts_encodeInts (xs : List int32) : decodeInts (encodeInts xs) = xs := by
  simpa using decodeInts_encodeInts_append xs [] (by simp)

theorem encodeInts_length (xs : List int32) : (encodeInts xs).length = 4 * xs.length := by
  induction xs with
  | nil => rfl
  | cons x xs ih => simp [encodeInts, int32.toBytes_length, ih]; omega

theorem encodeInts_append (xs ys : List int32) :
    encodeInts (xs ++ ys) = encodeInts xs ++ encodeInts ys := by
  induction xs with
  | nil => rfl
  | cons x xs ih => simp [encodeInts, ih]

theorem pairUp_flattenPairs (cs : List (int32 × int32)) : pairUp (flattenPairs cs) = cs := by
  induction cs with
  | nil => rfl
  | cons c cs ih => simp [flattenPairs, pairUp, ih]

theorem flattenPairs_length (cs : List (int32 × int32)) :
    (flattenPairs cs).length = 2 * cs.length := by
  induction cs with
  | nil => rfl
  | cons c cs ih => simp [flattenPairs, ih]; omega

/-! ## IntLmState::Write: the buffer it builds -/

theorem set_length_append (pre post : List int32) (x v : int32) :
    (pre ++ x :: post).set pre.length v = pre ++ v :: post := by
  induction pre with
  | nil => rfl
  | cons a pre ih => simp [List.set, ih]

theorem get?_length_append {α : Type} (pre post : List α) (x : α) :
    (pre ++ x :: post).get? pre.length = some x := by
  induction pre with
  | nil => rfl
  | cons a pre ih => simpa using ih

theorem store_at (pre post : List int32) (x v idx : int32) (h : idx.val = pre.length) :
    store (pre ++ x :: post) idx v = some (pre ++ v :: post) := by
  have h1 : idx.val.toNat = pre.length := by omega
  have h2 : 0 ≤ idx.val ∧ idx.val.toNat < (pre ++ x :: post).length := by
    constructor
    · omega
    · rw [h1]; simp
  rw [store, if_pos h2, h1, set_length_append]

theorem Write_history_loop (history : List int32)
    (hfit : 2 + (history.length : Int) < 2147483648) :
    ∀ (todo done pre post : List int32), history = done ++ todo →
      pre.length = 2 + done.length →
      forLoopFrom
        (fun i buffer => (history.get? i).bind fun h => store buffer (2 + int32.wrap i) h)
        todo.length done.length (pre ++ (List.replicate todo.length default ++ post))
        = some (pre ++ (todo ++ post)) := by
  intro todo
  induction todo with
  | nil => intro done pre post _ _; rfl
  | cons h t ih =>
    intro done pre post hsplit hpre
    have hlen : history.length = done.length + (t.length + 1) := by
      rw [hsplit]; simp
    have hget : history.get? done.length = some h := by
      rw [hsplit]; exact get?_length_append done t h
    have hidx : (2 + int32.wrap (done.length : Int)).val = (pre.length : Int) := by
      simp only [int32.add_def, int32.ofNat_def, int32.wrap_val, Nat.cast_ofNat]
      omega
    rw [List.length_cons, forLoopFrom, hget, Option.some_bind, List.replicate_succ,
      List.cons_append, store_at pre _ _ h _ hidx, Option.some_bind]
    have := ih (done ++ [h]) (pre ++ [h]) post (by simp [hsplit]) (by simp [hpre]; omega)
    simpa using this

theorem Write_counts_loop (counts : List (int32 × int32)) (history_size : int32) (H : Nat)
    (hH : history_size.val = H)
    (hfit : 2 + (H : Int) + 2 * (counts.length : Int) < 2147483648) :
    ∀ (todo done : List (int32 × int32)) (pre : List int32), counts = done ++ todo →
      pre.length = 2 + H + 2 * done.length →
      forLoopFrom
        (fun i buffer => (counts.get? i).bind fun c =>
          (store buffer (2 + history_size + 2 * int32.wrap i) c.1).bind fun buffer =>
          store buffer (2 + history_size + 2 * int32.wrap i + 1) c.2)
        todo.length done.length (pre ++ List.replicate (2 * todo.length) default)
        = some (pre ++ flattenPairs todo) := by
  intro todo
  induction todo with
  | nil => intro done pre _ _; rfl
  | cons c t ih =>
    intro done pre hsplit hpre
    have hlen : counts.length = done.length + (t.length + 1) := by
      rw [hsplit]; simp
    have hget : counts.get? done.length = some c := by
      rw [hsplit]; exact get?_length_append done t c
    have hidx1 : (2 + history_size + 2 * int32.wrap (done.length : Int)).val
        = (pre.length : Int) := by
      simp only [int32.add_def, int32.mul_def, int32.ofNat_def, int32.wrap_val, Nat.cast_ofNat]
      omega
    have hidx2 : (2 + history_size + 2 * int32.wrap (done.length : Int) + 1).val
        = ((pre ++ [c.1]).length : Int) := by
      simp only [int32.add_def, int32.mul_def, int32.ofNat_def, int32.wrap_val, Nat.cast_ofNat,
        List.length_append, List.length_singleton, Nat.cast_add, Nat.cast_one]
      omega
    have hrep : List.replicate (2 * (t.length + 1)) (default : int32)
        = default :: default :: List.replicate (2 * t.length) default := by
      rw [show 2 * (t.length + 1) = 2 * t.length + 1 + 1 by omega]; rfl
    rw [List.length_cons, forLoopFrom, hget, Option.some_bind, hrep,
      store_at pre _ _ c.1 _ hidx1, Option.some_bind]
    have hs2 := store_at (pre ++ [c.1]) (List.replicate (2 * t.length) default) default c.2
      _ hidx2
    simp only [List.append_assoc, List.singleton_append] at hs2
    rw [hs2, Option.some_bind]
    have := ih (done ++ [c]) (pre ++ [c.1, c.2]) (by simp [hsplit]) (by simp [hpre]; omega)
    simpa [flattenPairs] using this

theorem IntLmState.Write_eq (kBosSymbol kEosSymbol : int32) (rnd : Nat) (s : IntLmState)
    (hfit : 2 + s.history.length + 2 * s.counts.length < 2147483648)
    (hne : s.counts ≠ [])
    (hchk : rnd % 2 = 0 → IntLmState.Check kBosSymbol kEosSymbol s = true) :
    IntLmState.Write kBosSymbol kEosSymbol rnd s = some (encodeInts s.words) := by
  have hN : 0 < s.counts.length := List.length_pos.mpr hne
  have hc1 : ¬ (rnd % 2 = 0 ∧ IntLmState.Check kBosSymbol kEosSymbol s = false) := by
    rintro ⟨h1, h2⟩
    rw [hchk h1] at h2
    exact Bool.noConfusion h2
  have hHv : (int32.wrap (s.history.length : Int)).val = s.history.length := by
    rw [int32.wrap_val]; omega
  have hNv : (int32.wrap (s.counts.length : Int)).val = s.counts.length := by
    rw [int32.wrap_val]; omega
  have hB : (2 + int32.wrap (s.history.length : Int) + 2 * int32.wrap (s.counts.length : Int)).val
      = ((2 + s.history.length + 2 * s.counts.length : Nat) : Int) := by
    simp only [int32.add_def, int32.mul_def, int32.ofNat_def, int32.wrap_val, Nat.cast_ofNat]
    push_cast
    omega
  have hc2 : ¬ ¬ (int32.wrap (s.counts.length : Int) > 0) := by
    simp only [gt_iff_lt, int32.lt_def, hNv, not_not, int32.ofNat_def, int32.wrap_val]
    omega
  have hc3 : ¬ (2 + int32.wrap (s.history.length : Int) + 2 * int32.wrap (s.counts.length : Int)
      < 0) := by
    rw [int32.lt_def, hB]
    simp only [int32.ofNat_def, int32.wrap_val]
    omega
  rw [IntLmState.Write, if_neg hc1]
  simp only [if_neg hc2, if_neg hc3, hB, Int.toNat_ofNat]
  have hrep : List.replicate (2 + s.history.length + 2 * s.counts.length) (default : int32)
      = [] ++ default :: default ::
          (List.replicate s.history.length default ++
            List.replicate (2 * s.counts.length) default) := by
    rw [← List.replicate_add]
    rw [show 2 + s.history.length + 2 * s.counts.length
      = (s.history.length + 2 * s.counts.length) + 1 + 1 by omega]
    simp [List.replicate_succ]
  rw [hrep, store_at [] _ _ _ 0 (by simp [int32.ofNat_def, int32.wrap_val]), Option.some_bind]
  rw [List.nil_append]
  have hs1 := store_at [int32.wrap (s.history.length : Int)]
    (List.replicate s.history.length default ++ List.replicate (2 * s.counts.length) default)
    default (int32.wrap (s.counts.length : Int)) 1 (by simp [int32.ofNat_def, int32.wrap_val])
  simp only [List.singleton_append] at hs1
  rw [hs1, Option.some_bind]
  have hl1 := Write_history_loop s.history (by omega) s.history [] 
    [int32.wrap (s.history.length : Int), int32.wrap (s.counts.length : Int)]
    (List.replicate (2 * s.counts.length) default) (by simp) (by simp)
  simp only [forLoop, hHv, hNv, Int.toNat_ofNat]
  simp only [List.length_nil, List.cons_append, List.nil_append] at hl1
  rw [hl1, Option.some_bind]
  have hl2 := Write_counts_loop s.counts (int32.wrap (s.history.length : Int)) s.history.length
    hHv (by omega) s.counts []
    ([int32.wrap (s.history.length : Int), int32.wrap (s.counts.length : Int)] ++ s.history)
    (by simp) (by simp; omega)
  simp only [List.length_nil, List.cons_append, List.nil_append] at hl2
  rw [hl2, Option.some_bind, IntLmState.words]

/-! ## IntLmState::Read on an encoded record -/

theorem take_append_len {α : Type} (l₁ l₂ : List α) (n : Nat) (h : l₁.length = n) :
    (l₁ ++ l₂).take n = l₁ := by
  subst h; simp

theorem drop_append_len {α : Type} (l₁ l₂ : List α) (n : Nat) (h : l₁.length = n) :
    (l₁ ++ l₂).drop n = l₂ := by
  subst h; simp

theorem IntLmState.Read_encode (kBosSymbol kEosSymbol : int32) (rnd : Nat) (s : IntLmState)
    (rest : List byte) (hH : s.history.length < 2147483648)
    (hN : s.counts.length < 2147483648) (hne : s.counts ≠ []) :
    IntLmState.Read kBosSymbol kEosSymbol rnd (encodeInts s.words ++ rest) =
      (if rnd % 10 = 0 ∧ IntLmState.Check kBosSymbol kEosSymbol s = false then none
       else some s, rest) := by
  have hNpos : 0 < s.counts.length := List.length_pos.mpr hne
  have hHv : (int32.wrap (s.history.length : Int)).val = s.history.length := by
    rw [int32.wrap_val]; omega
  have hNv : (int32.wrap (s.counts.length : Int)).val = s.counts.length := by
    rw [int32.wrap_val]; omega
  have hbytes : encodeInts s.words ++ rest =
      encodeInts [int32.wrap s.history.length, int32.wrap s.counts.length] ++
        (encodeInts s.history ++ (encodeInts (flattenPairs s.counts) ++ rest)) := by
    simp [IntLmState.words, encodeInts, encodeInts_append]
  have hlenA : (encodeInts [int32.wrap (s.history.length : Int),
      int32.wrap (s.counts.length : Int)]).length = 4 * 2 := by
    rw [encodeInts_length]; rfl
  have hc1 : ¬ ((encodeInts [int32.wrap (s.history.length : Int),
      int32.wrap (s.counts.length : Int)]).length ≠ 4 * 2) := by
    rw [hlenA]; simp
  have hc2 : ¬ ¬ (int32.wrap (s.history.length : Int) ≥ 0 ∧
      int32.wrap (s.counts.length : Int) > 0) := by
    simp only [ge_iff_le, gt_iff_lt, int32.le_def, int32.lt_def, hHv, hNv, not_not,
      int32.ofNat_def, int32.wrap_val]
    omega
  have hhist : (if int32.wrap (s.history.length : Int) > 0 then
        istream.read (encodeInts s.history ++ (encodeInts (flattenPairs s.counts) ++ rest))
          (4 * s.history.length)
      else ([], encodeInts s.history ++ (encodeInts (flattenPairs s.counts) ++ rest)))
      = (encodeInts s.history, encodeInts (flattenPairs s.counts) ++ rest) := by
    by_cases h0 : s.history = []
    · have : ¬ (int32.wrap (s.history.length : Int) > 0) := by
        simp [h0, int32.lt_def, int32.ofNat_def, int32.wrap_val]
      rw [if_neg this]
      simp [h0, encodeInts]
    · have hp : 0 < s.history.length := List.length_pos.mpr h0
      have : int32.wrap (s.history.length : Int) > 0 := by
        simp only [gt_iff_lt, int32.lt_def, hHv, int32.ofNat_def, int32.wrap_val]
        omega
      rw [if_pos this, istream.read,
        take_append_len _ _ _ (encodeInts_length s.history),
        drop_append_len _ _ _ (encodeInts_length s.history)]
  have hc3 : ¬ (int32.wrap (s.history.length : Int) > 0 ∧
      (encodeInts s.history).length ≠ 4 * s.history.length) := by
    rw [encodeInts_length]; simp
  have hlenC : (encodeInts (flattenPairs s.counts)).length = 4 * 2 * s.counts.length := by
    rw [encodeInts_length, flattenPairs_length]; omega
  have hc4 : ¬ ((encodeInts (flattenPairs s.counts)).length ≠ 4 * 2 * s.counts.length) := by
    rw [hlenC]; simp
  rw [hbytes, IntLmState.Read]
  simp only [istream.read, take_append_len _ _ _ hlenA, drop_append_len _ _ _ hlenA,
    if_neg hc1, decodeInts_encodeInts, List.getD_cons_zero, List.getD_cons_succ, if_neg hc2,
    hHv, hNv, Int.toNat_ofNat]
  simp only [istream.read] at hhist
  simp only [hhist, if_neg hc3, take_append_len _ _ _ hlenC, drop_append_len _ _ _ hlenC,
    if_neg hc4, decodeInts_encodeInts, pairUp_flattenPairs]
  split <;> rfl

/-! ## C1: the Int round trip -/

theorem IntLmState.Check_counts_ne_nil (kBosSymbol kEosSymbol : int32) (s : IntLmState)
    (h : IntLmState.Check kBosSymbol kEosSymbol s = true) : s.counts ≠ [] := by
  intro hnil
  simp [IntLmState.Check, hnil] at h

/-- C1 (amended): Int round trip.  For every `IntLmState` `V` that passes `Check` and whose
`2 + H + 2N` words fit the `int32` buffer size, and for every outcome of the two `rand()`
draws, `Write` produces bytes and `Read` on exactly these bytes succeeds, consumes all of
them and yields `V`. -/
theorem IntLmState.Read_Write (kBosSymbol kEosSymbol : int32) (rw rr : Nat) (V : IntLmState)
    (hV : IntLmState.Check kBosSymbol kEosSymbol V = true)
    (hfit : 2 + V.history.length + 2 * V.counts.length < 2147483648) :
    ∃ bytes, IntLmState.Write kBosSymbol kEosSymbol rw V = some bytes ∧
      IntLmState.Read kBosSymbol kEosSymbol rr bytes = (some V, []) := by
  have hne := IntLmState.Check_counts_ne_nil kBosSymbol kEosSymbol V hV
  refine ⟨encodeInts V.words, IntLmState.Write_eq kBosSymbol kEosSymbol rw V hfit hne
    (fun _ => hV), ?_⟩
  have h := IntLmState.Read_encode kBosSymbol kEosSymbol rr V [] (by omega) (by omega) hne
  rw [List.append_nil] at h
  rw [h, hV]
  simp

/-- Witness for C1 (amended): the record with history `[3, 4]` and counts
`[(5, 1), (7, 2)]`, begin-marker 1, end-marker 2. -/
theorem IntLmState.Read_Write_witness :
    ∃ bytes, IntLmState.Write 1 2 0 ⟨[3, 4], [(5, 1), (7, 2)]⟩ = some bytes ∧
      IntLmState.Read 1 2 0 bytes = (some ⟨[3, 4], [(5, 1), (7, 2)]⟩, []) :=
  IntLmState.Read_Write 1 2 0 0 ⟨[3, 4], [(5, 1), (7, 2)]⟩ (by decide) (by decide)

theorem checkHistory_replicate (kEosSymbol h : int32) (hh : h > 0 ∧ h ≠ kEosSymbol) (n : Nat) :
    checkHistory kEosSymbol (List.replicate n h) = true := by
  induction n with
  | zero => rfl
  | succ n ih => simp [List.replicate_succ, checkHistory, hh, ih]

theorem IntLmState.Write_overflow (kBosSymbol kEosSymbol : int32) (rnd : Nat)
    (hs : List int32) (c : int32 × int32) (hlen : hs.length = 2147483644) :
    IntLmState.Write kBosSymbol kEosSymbol rnd ⟨hs, [c]⟩ = none := by
  rw [IntLmState.Write]
  split
  · rfl
  · simp only [hlen, List.length_singleton]
    have h1 : ¬ ¬ (int32.wrap ((1 : Nat) : Int) > 0) := by decide
    have h2 : (2 + int32.wrap ((2147483644 : Nat) : Int) + 2 * int32.wrap ((1 : Nat) : Int) : int32)
        < 0 := by decide
    rw [if_neg h1, if_pos h2]

/-- C1, counterexample: the record whose history is 2147483644 copies of the word 3 and
whose counts are `[(3, 1)]` passes `Check` (begin-marker 1, end-marker 2), but
`2 + H + 2N = 2^31` does not fit `int32`, the buffer size is negative, and `Write` yields
no bytes at all, whether or not it samples `Check`. -/
theorem IntLmState.Read_Write_counterexample :
    IntLmState.Check 1 2 ⟨List.replicate 2147483644 3, [(3, 1)]⟩ = true ∧
    IntLmState.Write 1 2 0 ⟨List.replicate 2147483644 3, [(3, 1)]⟩ = none ∧
    IntLmState.Write 1 2 1 ⟨List.replicate 2147483644 3, [(3, 1)]⟩ = none := by
  refine ⟨?_, ?_, ?_⟩
  · have h := checkHistory_replicate 2 3 (by decide) 2147483644
    simp only [IntLmState.Check, h, Bool.true_and]
    decide
  · exact IntLmState.Write_overflow 1 2 0 _ _ (List.length_replicate _ _)
  · exact IntLmState.Write_overflow 1 2 1 _ _ (List.length_replicate _ _)

/-! ## C8: what IntLmState::Check tests -/

theorem checkHistory_iff (kEosSymbol : int32) (hs : List int32) :
    checkHistory kEosSymbol hs = true ↔ ∀ h ∈ hs, h > 0 ∧ h ≠ kEosSymbol := by
  induction hs with
  | nil => simp [checkHistory]
  | cons h rest ih => simp [checkHistory, ih]

theorem IntLmState.checkCounts_iff (kBosSymbol : int32) (cs : List (int32 × int32)) :
    IntLmState.checkCounts kBosSymbol cs = true ↔
      (∀ c ∈ cs, c.1 > 0 ∧ c.1 ≠ kBosSymbol) ∧ (∀ c ∈ cs, c.2 > 0) ∧
        List.Pairwise (fun a b => a.1 < b.1) cs := by
  induction cs with
  | nil => simp [IntLmState.checkCounts]
  | cons c rest ih =>
    cases rest with
    | nil => simp [IntLmState.checkCounts]
    | cons d r =>
      rw [IntLmState.checkCounts]
      simp only [Bool.and_eq_true, decide_eq_true_eq, ih, List.pairwise_cons, List.mem_cons,
        forall_eq_or_imp]
      constructor
      · rintro ⟨⟨⟨hc, hc2⟩, hlt⟩, ⟨hd, hr⟩, ⟨hd2, hr2⟩, hdr, hp⟩
        refine ⟨⟨hc, hd, hr⟩, ⟨hc2, hd2, hr2⟩, ⟨hlt, ?_⟩, hdr, hp⟩
        intro e he
        have := hdr e he
        rw [int32.lt_def] at hlt this ⊢
        omega
      · rintro ⟨⟨hc, hd, hr⟩, ⟨hc2, hd2, hr2⟩, ⟨hlt, _⟩, hdr, hp⟩
        exact ⟨⟨⟨hc, hc2⟩, hlt⟩, ⟨hd, hr⟩, ⟨hd2, hr2⟩, hdr, hp⟩

/-- C8: `IntLmState::Check` succeeds exactly when the record invariant holds: every
history element is `> 0` and differs from the end-marker, the count list is non-empty,
every word is `> 0` and differs from the begin-marker, every count is `> 0` and the words
are strictly ascending; in every other case it fails. -/
theorem IntLmState.Check_iff (kBosSymbol kEosSymbol : int32) (s : IntLmState) :
    (IntLmState.Check kBosSymbol kEosSymbol s = true ↔
      IntLmState.Invariant kBosSymbol kEosSymbol s) ∧
    (IntLmState.Check kBosSymbol kEosSymbol s = false ↔
      ¬ IntLmState.Invariant kBosSymbol kEosSymbol s) := by
  have h : IntLmState.Check kBosSymbol kEosSymbol s = true ↔
      IntLmState.Invariant kBosSymbol kEosSymbol s := by
    simp only [IntLmState.Check, IntLmState.Invariant, Bool.and_eq_true, decide_eq_true_eq,
      checkHistory_iff, IntLmState.checkCounts_iff, List.length_pos, and_assoc]
  refine ⟨h, ?_⟩
  rw [← h]
  simp

/-! ## C10: short reads -/

theorem IntLmState.Read_short (kBosSymbol kEosSymbol : int32) (rnd : Nat) (is : istream)
    (H N : int32) (hhdr : 8 ≤ is.length → decodeInts (is.take 8) = [H, N])
    (hlen : is.length < 8 + 4 * H.val.toNat + 8 * N.val.toNat) :
    (IntLmState.Read kBosSymbol kEosSymbol rnd is).1 = none := by
  rw [IntLmState.Read]
  simp only [istream.read, Nat.reduceMul, List.length_take, List.length_drop]
  by_cases h8 : is.length < 8
  · have : min 8 is.length ≠ 8 := by omega
    rw [if_pos this]
  · have h8b : ¬ (min 8 is.length ≠ 8) := by omega
    rw [if_neg h8b, hhdr (by omega)]
    simp only [List.getD_cons_zero, List.getD_cons_succ]
    by_cases hc : ¬ (H ≥ 0 ∧ N > 0)
    · rw [if_pos hc]
    · rw [if_neg hc]
      have hN : 0 < N.val := by
        have := (not_not.mp hc).2
        simpa [int32.lt_def, int32.ofNat_def, int32.wrap_val] using this
      by_cases hH : H > 0
      · simp only [if_pos hH, List.length_take, List.length_drop]
        split_ifs <;> first | rfl | (exfalso; omega)
      · have hH0 : H.val.toNat = 0 := by
          have : ¬ (0 < H.val) := by
            simpa [int32.lt_def, int32.ofNat_def, int32.wrap_val] using hH
          omega
        simp only [if_neg hH, List.length_take, List.length_drop, false_and, if_false]
        split_ifs <;> first | rfl | (exfalso; omega)

/-- C10 (amended): short reads are fatal for Int decode.  For every `IntLmState` `V` that
passes `Check` and whose `2 + H + 2N` words fit the `int32` buffer size, every strict
prefix `P` of the bytes that `Write` produces makes `Read` fail: no record is returned,
whatever the `rand()` draws are. -/
theorem IntLmState.Read_strict_prefix (kBosSymbol kEosSymbol : int32) (rw rr : Nat)
    (V : IntLmState) (hV : IntLmState.Check kBosSymbol kEosSymbol V = true)
    (hfit : 2 + V.history.length + 2 * V.counts.length < 2147483648)
    (bytes P : List byte) (hW : IntLmState.Write kBosSymbol kEosSymbol rw V = some bytes)
    (hP : P <+: bytes) (hne : P ≠ bytes) :
    (IntLmState.Read kBosSymbol kEosSymbol rr P).1 = none := by
  have hcne := IntLmState.Check_counts_ne_nil kBosSymbol kEosSymbol V hV
  rw [IntLmState.Write_eq kBosSymbol kEosSymbol rw V hfit hcne (fun _ => hV)] at hW
  have hbytes : bytes = encodeInts V.words := (Option.some.inj hW).symm
  have hHv : (int32.wrap (V.history.length : Int)).val = V.history.length := by
    rw [int32.wrap_val]; omega
  have hNv : (int32.wrap (V.counts.length : Int)).val = V.counts.length := by
    rw [int32.wrap_val]; omega
  have hlenb : bytes.length = 8 + 4 * V.history.length + 8 * V.counts.length := by
    rw [hbytes, encodeInts_length]
    simp [IntLmState.words, flattenPairs_length]
    omega
  obtain ⟨t, ht⟩ := hP
  have htne : t ≠ [] := by
    intro h
    apply hne
    rw [← ht, h, List.append_nil]
  have hPlen : P.length < bytes.length := by
    have := List.length_pos.mpr htne
    rw [← ht, List.length_append]
    omega
  apply IntLmState.Read_short kBosSymbol kEosSymbol rr P (int32.wrap V.history.length)
    (int32.wrap V.counts.length)
  · intro h8
    have h1 : P.take 8 = bytes.take 8 := by
      rw [← ht, List.take_append_of_le_length h8]
    have h2 : bytes.take 8 = encodeInts [int32.wrap V.history.length,
        int32.wrap V.counts.length] := by
      rw [hbytes]
      have : encodeInts V.words = encodeInts [int32.wrap V.history.length,
          int32.wrap V.counts.length] ++ encodeInts (V.history ++ flattenPairs V.counts) := by
        rw [← encodeInts_append]; rfl
      rw [this, take_append_len _ _ _ (by rw [encodeInts_length]; rfl)]
    rw [h1, h2, decodeInts_encodeInts]
  · rw [hHv, hNv]
    simp only [Int.toNat_ofNat]
    omega

/-- Witness for C10 (amended): the record with history `[3]` and counts `[(4, 1)]` and
the first four of its five words. -/
theorem IntLmState.Read_strict_prefix_witness :
    (IntLmState.Read 1 2 0 (encodeInts [1, 1, 3, 4])).1 = none :=
  IntLmState.Read_strict_prefix 1 2 0 0 ⟨[3], [(4, 1)]⟩ (by decide) (by decide)
    (encodeInts [1, 1, 3, 4, 1]) (encodeInts [1, 1, 3, 4]) (by decide)
    ⟨encodeInts [1], by decide⟩ (by decide)

theorem forLoop_neg_two {σ : Type} (body : Nat → σ → Option σ) (s : σ) :
    forLoop (int32.wrap (-2)) body s = some s := by
  have h : (int32.wrap (-2)).val.toNat = 0 := by decide
  rw [forLoop, h]
  rfl

theorem IntLmState.Write_wrapped (kBosSymbol kEosSymbol : int32) (rnd : Nat)
    (hs : List int32) (hlen : hs.length = 4294967294)
    (hchk : rnd % 2 = 0 →
      IntLmState.Check kBosSymbol kEosSymbol ⟨hs, [(3, 1), (4, 1), (5, 1), (6, 1)]⟩ = true) :
    IntLmState.Write kBosSymbol kEosSymbol rnd ⟨hs, [(3, 1), (4, 1), (5, 1), (6, 1)]⟩ =
      some (encodeInts [3, 1, 4, 1, 5, 1, 6, 1]) := by
  have hc1 : ¬ (rnd % 2 = 0 ∧ IntLmState.Check kBosSymbol kEosSymbol
      ⟨hs, [(3, 1), (4, 1), (5, 1), (6, 1)]⟩ = false) := by
    rintro ⟨h1, h2⟩
    rw [hchk h1] at h2
    exact Bool.noConfusion h2
  have e1 : int32.wrap ((hs.length : Nat) : Int) = int32.wrap (-2) := by
    rw [hlen]; decide
  rw [IntLmState.Write, if_neg hc1, e1]
  simp only [forLoop_neg_two, Option.some_bind]
  decide

/-- C10, counterexample: the record whose history is 4294967294 copies of the word 3 and
whose counts are `[(3, 1), (4, 1), (5, 1), (6, 1)]` passes `Check` (begin-marker 1,
end-marker 2).  Its history size becomes `-2` as an `int32`, so `Write` allocates 8 words
and the counts loop overwrites the two header words: the bytes written are those of
`3, 1, 4, 1, 5, 1, 6, 1`.  On the strict prefix holding the first seven words `Read`
(not sampling `Check`) succeeds and returns history `[4, 1, 5]`, counts `[(1, 6)]`. -/
theorem IntLmState.Read_strict_prefix_counterexample :
    IntLmState.Check 1 2
      ⟨List.replicate 4294967294 3, [(3, 1), (4, 1), (5, 1), (6, 1)]⟩ = true ∧
    IntLmState.Write 1 2 0
      ⟨List.replicate 4294967294 3, [(3, 1), (4, 1), (5, 1), (6, 1)]⟩ =
        some (encodeInts [3, 1, 4, 1, 5, 1, 6, 1]) ∧
    encodeInts [3, 1, 4, 1, 5, 1, 6] <+: encodeInts [3, 1, 4, 1, 5, 1, 6, 1] ∧
    encodeInts [3, 1, 4, 1, 5, 1, 6] ≠ encodeInts [3, 1, 4, 1, 5, 1, 6, 1] ∧
    IntLmState.Read 1 2 1 (encodeInts [3, 1, 4, 1, 5, 1, 6]) =
      (some ⟨[4, 1, 5], [(1, 6)]⟩, []) := by
  have hchk : IntLmState.Check 1 2
      ⟨List.replicate 4294967294 3, [(3, 1), (4, 1), (5, 1), (6, 1)]⟩ = true := by
    have h := checkHistory_replicate 2 3 (by decide) 4294967294
    simp only [IntLmState.Check, h, Bool.true_and]
    decide
  refine ⟨hchk, ?_, ⟨encodeInts [1], by decide⟩, by decide, by decide⟩
  exact IntLmState.Write_wrapped 1 2 0 _ (List.length_replicate _ _) (fun _ => hchk)

/-! ## C5, C6: the declared sizes in the header -/

theorem decodeInts_toBytes (x : int32) : decodeInts x.toBytes = [x] := by
  have h := decodeInts_toBytes_append x []
  rw [List.append_nil] at h
  rw [h]; rfl

theorem IntLmState.Read_long_history (kBosSymbol kEosSymbol : int32) (rnd : Nat)
    (hs : List int32) (hlen : hs.length = 10001) (c : int32 × int32)
    (hchk : IntLmState.Check kBosSymbol kEosSymbol ⟨hs, [c]⟩ = true) :
    IntLmState.Read kBosSymbol kEosSymbol rnd (encodeInts ([10001, 1] ++ hs ++ [c.1, c.2])) =
      (some ⟨hs, [c]⟩, []) := by
  have h := IntLmState.Read_encode kBosSymbol kEosSymbol rnd ⟨hs, [c]⟩ []
    (by simp only [hlen]; decide) (by simp) (by simp)
  have hw : IntLmState.words ⟨hs, [c]⟩ = [10001, 1] ++ hs ++ [c.1, c.2] := by
    simp only [IntLmState.words, hlen, List.length_singleton, flattenPairs, List.cons_append,
      List.nil_append]
    rfl
  rw [List.append_nil, hw] at h
  rw [h, hchk]
  simp

/-- C5, the code at the failing input: a stream that declares a history of 10001 words
and one entry, followed by 10001 copies of the word 3 and the entry `(3, 1)`
(begin-marker 1, end-marker 2).  `IntLmState::Read` does not fail; it returns the record,
whether or not it samples `Check`. -/
theorem IntLmState.Read_long_history_accepted :
    IntLmState.Read 1 2 0 (encodeInts ([10001, 1] ++ List.replicate 10001 3 ++ [3, 1])) =
      (some ⟨List.replicate 10001 3, [(3, 1)]⟩, []) ∧
    IntLmState.Read 1 2 1 (encodeInts ([10001, 1] ++ List.replicate 10001 3 ++ [3, 1])) =
      (some ⟨List.replicate 10001 3, [(3, 1)]⟩, []) := by
  have hchk : IntLmState.Check 1 2 ⟨List.replicate 10001 3, [(3, 1)]⟩ = true := by
    have h := checkHistory_replicate 2 3 (by decide) 10001
    simp only [IntLmState.Check, h, Bool.true_and]
    decide
  exact ⟨IntLmState.Read_long_history 1 2 0 _ (List.length_replicate _ _) (3, 1) hchk,
    IntLmState.Read_long_history 1 2 1 _ (List.length_replicate _ _) (3, 1) hchk⟩

theorem IntLmState.Read_negative_history (kBosSymbol kEosSymbol : int32) (rnd : Nat)
    (history_size num_counts : int32) (tail : List byte) (h : history_size < 0) :
    IntLmState.Read kBosSymbol kEosSymbol rnd
      (history_size.toBytes ++ (num_counts.toBytes ++ tail)) = (none, tail) := by
  have hbytes : history_size.toBytes ++ (num_counts.toBytes ++ tail) =
      encodeInts [history_size, num_counts] ++ tail := by
    simp [encodeInts]
  have hlenA : (encodeInts [history_size, num_counts]).length = 4 * 2 := by
    rw [encodeInts_length]; rfl
  have hc1 : ¬ ((encodeInts [history_size, num_counts]).length ≠ 4 * 2) := by
    rw [hlenA]; simp
  have hc2 : ¬ (history_size ≥ 0 ∧ num_counts > 0) := by
    rintro ⟨h0, _⟩
    rw [ge_iff_le, int32.le_def] at h0
    rw [int32.lt_def] at h
    omega
  rw [hbytes, IntLmState.Read]
  simp only [istream.read, take_append_len _ _ _ hlenA, drop_append_len _ _ _ hlenA,
    if_neg hc1, decodeInts_encodeInts, List.getD_cons_zero, List.getD_cons_succ, if_pos hc2]

theorem decodeInts_length_of_cons (l : List byte) (x : int32) (xs : List int32)
    (h : decodeInts l = x :: xs) : 4 ≤ l.length := by
  match l, h with
  | [], h => simp [decodeInts] at h
  | [_], h => simp [decodeInts] at h
  | [_, _], h => simp [decodeInts] at h
  | [_, _, _], h => simp [decodeInts] at h
  | _ :: _ :: _ :: _ :: _, _ => simp

/-- C6: General decode boundary rejection.  Take any stream whose first four bytes
declare the history length `history_size`.  When `history_size` is negative or exceeds
10000, `GeneralLmState::Read` fails having consumed these four bytes only.  When
`history_size` is in range and the next four bytes declare an entry count
`num_counts <= 0`, it fails having consumed the eight header bytes only.  No history or
entry byte is read in either case. -/
theorem GeneralLmState.Read_rejects {Count : Type} (layout : PairLayout Count)
    (kBosSymbol kEosSymbol : int32) (rnd : Nat) (is : istream) (history_size : int32)
    (hdecl : decodeInts (is.take 4) = [history_size])
    (h : history_size < 0 ∨ history_size > 10000 ∨
      ∃ num_counts : int32, decodeInts ((is.drop 4).take 4) = [num_counts] ∧ num_counts ≤ 0) :
    GeneralLmState.Read layout kBosSymbol kEosSymbol rnd is =
      (none, if history_size < 0 ∨ history_size > 10000 then is.drop 4 else is.drop 8) := by
  have hlen1 : (is.take 4).length = 4 := by
    have h4 := decodeInts_length_of_cons _ _ _ hdecl
    have hle : (is.take 4).length ≤ 4 := List.length_take_le 4 is
    omega
  have hc1 : ¬ ((is.take 4).length ≠ 4) := by simp [hlen1]
  rw [GeneralLmState.Read]
  simp only [istream.read, if_neg hc1, hdecl, List.getD_cons_zero]
  by_cases hbad : history_size < 0 ∨ history_size > 10000
  · have hbad2 : history_size > 10000 ∨ history_size < 0 := hbad.symm
    rw [if_pos hbad2, if_pos hbad]
  · have hbad2 : ¬ (history_size > 10000 ∨ history_size < 0) := fun h => hbad h.symm
    rw [if_neg hbad2, if_neg hbad]
    rcases h with h | h | ⟨num_counts, hnum, hnc⟩
    · exact absurd (Or.inl h) hbad
    · exact absurd (Or.inr h) hbad
    · have hlen2 : ((is.drop 4).take 4).length = 4 := by
        have h4 := decodeInts_length_of_cons _ _ _ hnum
        have hle : ((is.drop 4).take 4).length ≤ 4 := List.length_take_le 4 _
        omega
      have hc2 : ¬ (((is.drop 4).take 4).length ≠ 4) := by simp [hlen2]
      simp only [if_neg hc2, hnum, List.getD_cons_zero, if_pos hnc, List.drop_drop]

/-- Witness for C6: the stream of the three words `5, 0, 7`, which declares a history of
five words and no entry; the layout takes 20 bytes per pair. -/
theorem GeneralLmState.Read_rejects_witness :
    GeneralLmState.Read (⟨20, fun _ => (0, (0 : Int))⟩ : PairLayout Int) 1 2 0
      (encodeInts [5, 0, 7]) =
      (none, if (5 : int32) < 0 ∨ (5 : int32) > 10000 then (encodeInts [5, 0, 7]).drop 4
        else (encodeInts [5, 0, 7]).drop 8) :=
  GeneralLmState.Read_rejects ⟨20, fun _ => (0, (0 : Int))⟩ 1 2 0 (encodeInts [5, 0, 7]) 5
    (by decide) (Or.inr (Or.inr ⟨0, by decide, by decide⟩))

/-! ## C7: what FloatLmState::Check tests -/

theorem FloatLmState.checkCounts_words (kBosSymbol : int32) (cs : List (int32 × float)) :
    FloatLmState.checkCounts kBosSymbol cs = true ↔
      (∀ c ∈ cs, c.1 > 0 ∧ c.1 ≠ kBosSymbol) ∧ List.Pairwise (fun a b => a.1 < b.1) cs := by
  induction cs with
  | nil => simp [FloatLmState.checkCounts]
  | cons c rest ih =>
    cases rest with
    | nil => simp [FloatLmState.checkCounts]
    | cons d r =>
      rw [FloatLmState.checkCounts]
      simp only [Bool.and_eq_true, decide_eq_true_eq, ih, List.pairwise_cons, List.mem_cons,
        forall_eq_or_imp]
      constructor
      · rintro ⟨⟨hc, hlt⟩, ⟨hd, hr⟩, hdr, hp⟩
        refine ⟨⟨hc, hd, hr⟩, ⟨hlt, ?_⟩, hdr, hp⟩
        intro e he
        have := hdr e he
        rw [int32.lt_def] at hlt this ⊢
        omega
      · rintro ⟨⟨hc, hd, hr⟩, ⟨hlt, _⟩, hdr, hp⟩
        exact ⟨⟨hc, hlt⟩, ⟨hd, hr⟩, hdr, hp⟩

/-- C7, counterexample: the record with history `[3]` and counts `[(4, +0.0f), (5, -1.0f)]`
(begin-marker 1, end-marker 2) holds a zero and a negative count, neither of them
strictly positive, and `FloatLmState::Check` succeeds on it. -/
theorem FloatLmState.Check_counterexample :
    float.isPositive ⟨0⟩ = false ∧ float.isPositive ⟨3212836864⟩ = false ∧
    FloatLmState.Check 1 2 ⟨[3], ⟨0⟩, ⟨0⟩, [(4, ⟨0⟩), (5, ⟨3212836864⟩)]⟩ = true := by
  decide

/-- C7 (amended): `FloatLmState::Check` does not examine the count values.  It succeeds
exactly when every history element is `> 0` and differs from the end-marker, the count
list is non-empty, every word is `> 0` and differs from the begin-marker and the words
are strictly ascending, whatever the count values, `total` and `discount` are; in every
other case it fails. -/
theorem FloatLmState.Check_ignores_values (kBosSymbol kEosSymbol : int32) (s : FloatLmState) :
    (FloatLmState.Check kBosSymbol kEosSymbol s = true ↔
      FloatLmState.Invariant kBosSymbol kEosSymbol s) ∧
    (FloatLmState.Check kBosSymbol kEosSymbol s = false ↔
      ¬ FloatLmState.Invariant kBosSymbol kEosSymbol s) := by
  have h : FloatLmState.Check kBosSymbol kEosSymbol s = true ↔
      FloatLmState.Invariant kBosSymbol kEosSymbol s := by
    simp only [FloatLmState.Check, FloatLmState.Invariant, Bool.and_eq_true,
      decide_eq_true_eq, checkHistory_iff, FloatLmState.checkCounts_words, List.length_pos,
      and_assoc]
  refine ⟨h, ?_⟩
  rw [← h]
  simp


/-! ## C11: what a successful IntLmState::Read guarantees -/

theorem pairUp_decodeInts_ne_nil (l : List byte) (h : 8 ≤ l.length) :
    pairUp (decodeInts l) ≠ [] := by
  match l, h with
  | _ :: _ :: _ :: _ :: _ :: _ :: _ :: _ :: _, _ => simp [decodeInts, pairUp]
  | [], h => simp at h
  | [_], h => simp at h
  | [_, _], h => simp at h
  | [_, _, _], h => simp at h
  | [_, _, _, _], h => simp at h
  | [_, _, _, _, _], h => simp at h
  | [_, _, _, _, _, _], h => simp at h
  | [_, _, _, _, _, _, _], h => simp at h

/-- C11, counterexample: on the stream of the words `0, 1, 1, 1` (no history, one entry
`(1, 1)`) with begin-marker 1 and a draw that does not sample `Check`,
`IntLmState::Read` succeeds, and the record it returns fails `Check`: its word is the
begin-marker. -/
theorem IntLmState.Read_unchecked_counterexample :
    IntLmState.Read 1 2 1 (encodeInts [0, 1, 1, 1]) = (some ⟨[], [(1, 1)]⟩, []) ∧
    IntLmState.Check 1 2 ⟨[], [(1, 1)]⟩ = false := by
  decide

/-- C11 (amended): whenever `IntLmState::Read` returns successfully on a draw that samples
`Check` (`rand() % 10 == 0`), the record it produced satisfies every invariant that
`IntLmState::Check` enforces; on every draw the record has a non-empty count list. -/
theorem IntLmState.Read_sampled_valid (kBosSymbol kEosSymbol : int32) (rnd : Nat)
    (is : istream) (s : IntLmState) (rest : istream)
    (h : IntLmState.Read kBosSymbol kEosSymbol rnd is = (some s, rest)) :
    (rnd % 10 = 0 → IntLmState.Check kBosSymbol kEosSymbol s = true) ∧ s.counts ≠ [] := by
  rw [IntLmState.Read] at h
  simp only [istream.read] at h
  by_cases hH : (decodeInts (List.take (4 * 2) is)).getD 0 default > 0
  · simp only [if_pos hH] at h
    split_ifs at h with h1 h2 h4 h5 h6 <;> first
      | (cases h <;> done)
      | skip
    have hs := Option.some.inj (congrArg Prod.fst h)
    have hN : 0 < ((decodeInts (List.take (4 * 2) is)).getD 1 default).val := by
      have := h2.2
      simpa [int32.lt_def, int32.ofNat_def, int32.wrap_val] using this
    subst hs
    refine ⟨fun hr => ?_, ?_⟩
    · by_contra hc
      exact h6 ⟨hr, by simpa using hc⟩
    · apply pairUp_decodeInts_ne_nil
      rw [not_not.mp h5]
      omega
  · simp only [if_neg hH] at h
    split_ifs at h with h1 h2 h4 h5 h6 <;> first
      | (cases h <;> done)
      | skip
    have hs := Option.some.inj (congrArg Prod.fst h)
    have hN : 0 < ((decodeInts (List.take (4 * 2) is)).getD 1 default).val := by
      have := h2.2
      simpa [int32.lt_def, int32.ofNat_def, int32.wrap_val] using this
    subst hs
    refine ⟨fun hr => ?_, ?_⟩
    · by_contra hc
      exact h6 ⟨hr, by simpa using hc⟩
    · apply pairUp_decodeInts_ne_nil
      rw [not_not.mp h5]
      omega

/-- Witness for C11 (amended): the stream of the words `0, 1, 3, 1` and a sampling
draw. -/
theorem IntLmState.Read_sampled_valid_witness :
    (0 % 10 = 0 → IntLmState.Check 1 2 ⟨[], [(3, 1)]⟩ = true) ∧
      (⟨[], [(3, 1)]⟩ : IntLmState).counts ≠ [] :=
  IntLmState.Read_sampled_valid 1 2 0 (encodeInts [0, 1, 3, 1]) ⟨[], [(3, 1)]⟩ [] (by decide)

/-! ## C12: the binary layout of the Int record -/

theorem flattenPairs_eq_flatMap (cs : List (int32 × int32)) :
    flattenPairs cs = cs.flatMap fun c => [c.1, c.2] := by
  induction cs with
  | nil => rfl
  | cons c cs ih => simp [flattenPairs, ih]

theorem forLoop_nonpos {σ : Type} (n : int32) (hn : n.val ≤ 0) (body : Nat → σ → Option σ)
    (s : σ) : forLoop n body s = some s := by
  have h : n.val.toNat = 0 := by omega
  rw [forLoop, h]
  rfl

theorem IntLmState.Write_wrapped_header (kBosSymbol kEosSymbol : int32) (rnd : Nat)
    (hs : List int32) (hlen : hs.length = 4294967295) (hrnd : rnd % 2 = 1) :
    IntLmState.Write kBosSymbol kEosSymbol rnd ⟨hs, [(3, 1)]⟩ =
      some (encodeInts [int32.wrap (-1), 3, 1]) := by
  have hc1 : ¬ (rnd % 2 = 0 ∧
      IntLmState.Check kBosSymbol kEosSymbol ⟨hs, [(3, 1)]⟩ = false) := by
    rintro ⟨h1, _⟩
    omega
  have e1 : int32.wrap ((hs.length : Nat) : Int) = int32.wrap (-1) := by
    rw [hlen]; decide
  rw [IntLmState.Write, if_neg hc1, e1]
  simp only [forLoop_nonpos (int32.wrap (-1)) (by decide), Option.some_bind]
  decide

/-- C12, counterexample (begin-marker 1, end-marker 2).  First, the record with no history
and counts `[(1, 1)]` has non-empty counts but fails `Check` (its word is the
begin-marker): on a draw that samples `Check`, `Write` stops in the assertion and emits
nothing.  Second, with a history of 4294967295 copies of the word 3 and counts `[(3, 1)]`
the history size becomes `-1` as an `int32`; `Write` allocates 3 words and emits the words
`-1, 3, 1`, not `2 + H + 2N` words. -/
theorem IntLmState.Write_layout_counterexample :
    IntLmState.Write 1 2 0 ⟨[], [(1, 1)]⟩ = none ∧
    IntLmState.Write 1 2 1 ⟨List.replicate 4294967295 3, [(3, 1)]⟩ =
      some (encodeInts [int32.wrap (-1), 3, 1]) := by
  refine ⟨by decide, ?_⟩
  exact IntLmState.Write_wrapped_header 1 2 1 _ (List.length_replicate _ _) (by decide)

/-- C12 (amended): Int binary layout.  For every `IntLmState` with history `h` (length `H`)
and non-empty counts `c` (length `N`) such that `2 + H + 2N` fits the `int32` buffer size,
and for every draw on which `Write` does not stop in `Check` (the draw is odd, or the
record passes `Check`), `Write` emits exactly `2 + H + 2N` 32-bit words, in this order:
`H`, `N`, `h[0..H-1]`, then for each `i` in order `c[i].word` followed by `c[i].count`. -/
theorem IntLmState.Write_layout (kBosSymbol kEosSymbol : int32) (rnd : Nat) (V : IntLmState)
    (hne : V.counts ≠ [])
    (hfit : 2 + V.history.length + 2 * V.counts.length < 2147483648)
    (hchk : rnd % 2 = 0 → IntLmState.Check kBosSymbol kEosSymbol V = true) :
    ∃ (bytes : List byte) (H N : int32),
      IntLmState.Write kBosSymbol kEosSymbol rnd V = some bytes ∧
      H.val = V.history.length ∧ N.val = V.counts.length ∧
      bytes = encodeInts (H :: N :: (V.history ++ V.counts.flatMap fun c => [c.1, c.2])) ∧
      bytes.length = 4 * (2 + V.history.length + 2 * V.counts.length) := by
  refine ⟨encodeInts V.words, int32.wrap V.history.length, int32.wrap V.counts.length,
    IntLmState.Write_eq kBosSymbol kEosSymbol rnd V hfit hne hchk, ?_, ?_, ?_, ?_⟩
  · rw [int32.wrap_val]; omega
  · rw [int32.wrap_val]; omega
  · rw [IntLmState.words, flattenPairs_eq_flatMap]
  · rw [encodeInts_length, IntLmState.words]
    simp only [List.length_cons, List.length_append, flattenPairs_length]
    omega

/-- Witness for C12 (amended): the record with history `[3, 4]` and counts
`[(5, 1), (7, 2)]`. -/
theorem IntLmState.Write_layout_witness :
    ∃ (bytes : List byte) (H N : int32),
      IntLmState.Write 1 2 0 ⟨[3, 4], [(5, 1), (7, 2)]⟩ = some bytes ∧
      H.val = (2 : Nat) ∧ N.val = (2 : Nat) ∧
      bytes = encodeInts (H :: N :: ([3, 4] ++ [5, 1, 7, 2])) ∧
      bytes.length = 4 * (2 + 2 + 2 * 2) :=
  IntLmState.Write_layout 1 2 0 ⟨[3, 4], [(5, 1), (7, 2)]⟩ (by decide) (by decide)
    (fun _ => by decide)

/-! ## C18: one Read consumes one record -/

theorem forLoop_one {σ : Type} (n : int32) (hn : n.val = 1) (body : Nat → σ → Option σ)
    (s : σ) : forLoop n body s = body 0 s := by
  have h : n.val.toNat = 1 := by omega
  rw [forLoop, h, forLoopFrom]
  cases body 0 s with
  | none => rfl
  | some t => rfl

theorem IntLmState.Write_truncated (kBosSymbol kEosSymbol : int32) (rnd : Nat)
    (hs : List int32) (hlen : hs.length = 4294967297) (hget : hs.get? 0 = some 3)
    (hrnd : rnd % 2 = 1) :
    IntLmState.Write kBosSymbol kEosSymbol rnd ⟨hs, [(3, 1)]⟩ =
      some (encodeInts [1, 1, 3, 3, 1]) := by
  have hc1 : ¬ (rnd % 2 = 0 ∧
      IntLmState.Check kBosSymbol kEosSymbol ⟨hs, [(3, 1)]⟩ = false) := by
    rintro ⟨h1, _⟩
    omega
  have e1 : int32.wrap ((hs.length : Nat) : Int) = int32.wrap 1 := by
    rw [hlen]; decide
  rw [IntLmState.Write, if_neg hc1, e1]
  simp only [forLoop_one (int32.wrap 1) (by decide), hget, Option.some_bind]
  decide

/-- C18, counterexample (begin-marker 1, end-marker 2): the record `V` whose history is
4294967297 copies of the word 3 and whose counts are `[(3, 1)]` passes `Check`.  Its
history size becomes `1` as an `int32`, so `Write` emits the words `1, 1, 3, 3, 1`, and
`Read` on these bytes followed by the bytes of the word 9 returns the record with history
`[3]`, which is not `V`. -/
theorem IntLmState.Read_Write_append_counterexample :
    IntLmState.Check 1 2 ⟨List.replicate 4294967297 3, [(3, 1)]⟩ = true ∧
    IntLmState.Write 1 2 1 ⟨List.replicate 4294967297 3, [(3, 1)]⟩ =
      some (encodeInts [1, 1, 3, 3, 1]) ∧
    IntLmState.Read 1 2 1 (encodeInts [1, 1, 3, 3, 1] ++ encodeInts [9]) =
      (some ⟨[3], [(3, 1)]⟩, encodeInts [9]) ∧
    (⟨[3], [(3, 1)]⟩ : IntLmState) ≠ ⟨List.replicate 4294967297 3, [(3, 1)]⟩ := by
  refine ⟨?_, ?_, by decide, ?_⟩
  · have h := checkHistory_replicate 2 3 (by decide) 4294967297
    simp only [IntLmState.Check, h, Bool.true_and]
    decide
  · refine IntLmState.Write_truncated 1 2 1 _ (List.length_replicate _ _) ?_ (by decide)
    rw [List.get?_eq_getElem?, List.getElem?_replicate]
    simp
  · intro h
    have h2 := congrArg (fun s : IntLmState => s.history.length) h
    simp only [List.length_singleton, List.length_replicate] at h2
    omega

theorem IntLmState.ReadAll_encode (kBosSymbol kEosSymbol : int32) (Vs : List IntLmState)
    (hVs : ∀ W ∈ Vs, IntLmState.Check kBosSymbol kEosSymbol W = true ∧
      2 + W.history.length + 2 * W.counts.length < 2147483648) :
    ∀ (rrs : List Nat) (R : List byte), rrs.length = Vs.length →
      IntLmState.ReadAll kBosSymbol kEosSymbol rrs
        ((Vs.flatMap fun W => encodeInts W.words) ++ R) = (some Vs, R) := by
  induction Vs with
  | nil =>
    intro rrs R hlen
    have : rrs = [] := List.length_eq_zero.mp hlen
    subst this
    rfl
  | cons W Ws ih =>
    intro rrs R hlen
    match rrs, hlen with
    | r :: rs, hlen =>
      have hW := hVs W (List.mem_cons_self _ _)
      have hne := IntLmState.Check_counts_ne_nil kBosSymbol kEosSymbol W hW.1
      have hread := IntLmState.Read_encode kBosSymbol kEosSymbol r W
        ((Ws.flatMap fun W => encodeInts W.words) ++ R) (by omega) (by omega) hne
      rw [hW.1] at hread
      simp only [Bool.true_eq_false, and_false, if_false] at hread
      rw [List.flatMap_cons, List.append_assoc, IntLmState.ReadAll, hread]
      simp only
      rw [ih (fun X hX => hVs X (List.mem_cons_of_mem _ hX)) rs R (by simpa using hlen)]

/-- C18 (amended): Int decode consumes exactly one record.  For every `IntLmState` `V` that
passes `Check` and whose `2 + H + 2N` words fit the `int32` buffer size, `Write` produces
the same bytes on every draw, and `Read` on these bytes followed by any byte sequence `R`
yields `V` and leaves exactly `R` unread.  Hence for every list `Vs` of such records,
reading the concatenation of their encodings (followed by `R`) with one `Read` per record
returns the records in the order they were written and leaves `R`. -/
theorem IntLmState.Read_Write_append (kBosSymbol kEosSymbol : int32) (V : IntLmState)
    (hV : IntLmState.Check kBosSymbol kEosSymbol V = true)
    (hfit : 2 + V.history.length + 2 * V.counts.length < 2147483648)
    (Vs : List IntLmState)
    (hVs : ∀ W ∈ Vs, IntLmState.Check kBosSymbol kEosSymbol W = true ∧
      2 + W.history.length + 2 * W.counts.length < 2147483648) :
    (∃ bytes, (∀ rw, IntLmState.Write kBosSymbol kEosSymbol rw V = some bytes) ∧
      ∀ (rr : Nat) (R : List byte),
        IntLmState.Read kBosSymbol kEosSymbol rr (bytes ++ R) = (some V, R)) ∧
    (∃ enc : IntLmState → List byte,
      (∀ W ∈ Vs, ∀ rw, IntLmState.Write kBosSymbol kEosSymbol rw W = some (enc W)) ∧
      ∀ (rrs : List Nat) (R : List byte), rrs.length = Vs.length →
        IntLmState.ReadAll kBosSymbol kEosSymbol rrs (Vs.flatMap enc ++ R) = (some Vs, R)) := by
  constructor
  · have hne := IntLmState.Check_counts_ne_nil kBosSymbol kEosSymbol V hV
    refine ⟨encodeInts V.words, fun rw =>
      IntLmState.Write_eq kBosSymbol kEosSymbol rw V hfit hne (fun _ => hV), ?_⟩
    intro rr R
    rw [IntLmState.Read_encode kBosSymbol kEosSymbol rr V R (by omega) (by omega) hne, hV]
    simp
  · refine ⟨fun W => encodeInts W.words, ?_, IntLmState.ReadAll_encode kBosSymbol kEosSymbol Vs hVs⟩
    intro W hW rw
    have h := hVs W hW
    exact IntLmState.Write_eq kBosSymbol kEosSymbol rw W h.2
      (IntLmState.Check_counts_ne_nil kBosSymbol kEosSymbol W h.1) (fun _ => h.1)

/-- Witness for C18 (amended): the record with history `[3]` and counts `[(4, 1)]`, and the
two records with counts `[(5, 2)]` and `[(6, 1), (7, 1)]` written one after the other. -/
theorem IntLmState.Read_Write_append_witness :
    (∃ bytes, (∀ rw, IntLmState.Write 1 2 rw ⟨[3], [(4, 1)]⟩ = some bytes) ∧
      ∀ (rr : Nat) (R : List byte),
        IntLmState.Read 1 2 rr (bytes ++ R) = (some ⟨[3], [(4, 1)]⟩, R)) ∧
    (∃ enc : IntLmState → List byte,
      (∀ W ∈ [(⟨[], [(5, 2)]⟩ : IntLmState), ⟨[3], [(6, 1), (7, 1)]⟩],
        ∀ rw, IntLmState.Write 1 2 rw W = some (enc W)) ∧
      ∀ (rrs : List Nat) (R : List byte),
        rrs.length = [(⟨[], [(5, 2)]⟩ : IntLmState), ⟨[3], [(6, 1), (7, 1)]⟩].length →
        IntLmState.ReadAll 1 2 rrs
          ([(⟨[], [(5, 2)]⟩ : IntLmState), ⟨[3], [(6, 1), (7, 1)]⟩].flatMap enc ++ R) =
          (some [⟨[], [(5, 2)]⟩, ⟨[3], [(6, 1), (7, 1)]⟩], R)) :=
  IntLmState.Read_Write_append 1 2 ⟨[3], [(4, 1)]⟩ (by decide) (by decide)
    [⟨[], [(5, 2)]⟩, ⟨[3], [(6, 1), (7, 1)]⟩] (by decide)

/-! ## C13: the Float round trip -/

theorem float.float_toBytes_length (f : float) : f.toBytes.length = 4 := rfl

theorem decodeFloat_toBytes (f : float) : decodeFloat f.toBytes = f := by
  obtain ⟨⟨n, hn⟩⟩ := f
  simp only [float.toBytes, decodeFloat, float.ofBytes, Fin.ofNat, Nat.succ_eq_add_one,
    Nat.reduceAdd, float.mk.injEq, Fin.mk.injEq]
  omega

theorem decodeFloatPairs_cons (c : int32 × float) (rest : List byte) :
    decodeFloatPairs (c.1.toBytes ++ (c.2.toBytes ++ rest)) = c :: decodeFloatPairs rest := by
  have h1 := decodeInts_toBytes c.1
  have h2 := decodeFloat_toBytes c.2
  simp only [int32.toBytes, decodeInts, List.cons.injEq, and_true] at h1
  simp only [float.toBytes, decodeFloat] at h2
  simp only [int32.toBytes, float.toBytes, List.cons_append, List.nil_append, decodeFloatPairs,
    h1, h2]
  rfl

theorem decodeFloatPairs_encodeFloatPairs (cs : List (int32 × float)) :
    decodeFloatPairs (encodeFloatPairs cs) = cs := by
  induction cs with
  | nil => rfl
  | cons c cs ih => rw [encodeFloatPairs, decodeFloatPairs_cons, ih]

theorem encodeFloatPairs_length (cs : List (int32 × float)) :
    (encodeFloatPairs cs).length = 8 * cs.length := by
  induction cs with
  | nil => rfl
  | cons c cs ih =>
    simp only [encodeFloatPairs, List.length_append, int32.toBytes_length,
      float.float_toBytes_length, ih, List.length_cons]
    omega

theorem istreamState.read_append (A rest : List byte) (n : Nat) (h : A.length = n) :
    istreamState.read ⟨A ++ rest, true⟩ n = (A, ⟨rest, true⟩) := by
  have hle : n ≤ (A ++ rest).length := by rw [List.length_append]; omega
  simp only [istreamState.read, Bool.true_eq_false, if_false, if_pos hle,
    take_append_len A rest n h, drop_append_len A rest n h]

/-- The layout of the Float record: `historyLen`, `numCounts`, `total`, `discount`, the
history, then `word, count` for each entry. -/
theorem FloatLmState.Float_Write_eq (V : FloatLmState) (hne : V.counts ≠ [])
    (hH : V.history.length < 2147483648) (hN : V.counts.length < 2147483648) :
    FloatLmState.Write V =
      some ((int32.wrap V.history.length).toBytes ++ ((int32.wrap V.counts.length).toBytes ++
        (V.total.toBytes ++ (V.discount.toBytes ++
          (encodeInts V.history ++ encodeFloatPairs V.counts))))) := by
  have hNpos : 0 < V.counts.length := List.length_pos.mpr hne
  have hHv : (int32.wrap (V.history.length : Int)).val = V.history.length := by
    rw [int32.wrap_val]; omega
  have hNv : (int32.wrap (V.counts.length : Int)).val = V.counts.length := by
    rw [int32.wrap_val]; omega
  have hc : ¬ ¬ (int32.wrap (V.counts.length : Int) > 0) := by
    simp only [gt_iff_lt, int32.lt_def, hNv, not_not, int32.ofNat_def, int32.wrap_val]
    omega
  have hhist : (if int32.wrap (V.history.length : Int) > 0 then
      encodeInts (V.history.take V.history.length) else []) = encodeInts V.history := by
    by_cases h0 : V.history = []
    · simp [h0, encodeInts]
    · rw [List.take_length]
      split <;> first | rfl | skip
      rename_i hcond
      exfalso
      apply hcond
      have hp : 0 < V.history.length := List.length_pos.mpr h0
      simp only [gt_iff_lt, int32.lt_def, hHv, int32.ofNat_def, int32.wrap_val]
      omega
  rw [List.take_length] at hhist
  rw [FloatLmState.Write]
  simp only [if_neg hc, hHv, hNv, Int.toNat_ofNat, List.take_length, hhist]

theorem FloatLmState.Float_Read_encode (kBosSymbol kEosSymbol : int32) (rnd : Nat)
    (V : FloatLmState) (R : List byte) (hne : V.counts ≠ [])
    (hH : V.history.length ≤ 10000) (hN : V.counts.length < 2147483648) :
    FloatLmState.Read kBosSymbol kEosSymbol rnd
      ((int32.wrap V.history.length).toBytes ++ ((int32.wrap V.counts.length).toBytes ++
        (V.total.toBytes ++ (V.discount.toBytes ++
          (encodeInts V.history ++ (encodeFloatPairs V.counts ++ R)))))) =
      (if rnd % 10 = 0 ∧ FloatLmState.Check kBosSymbol kEosSymbol V = false then none
       else some V, R) := by
  have hNpos : 0 < V.counts.length := List.length_pos.mpr hne
  have hHv : (int32.wrap (V.history.length : Int)).val = V.history.length := by
    rw [int32.wrap_val]; omega
  have hNv : (int32.wrap (V.counts.length : Int)).val = V.counts.length := by
    rw [int32.wrap_val]; omega
  have hc2 : ¬ (int32.wrap (V.history.length : Int) < 0 ∨
      int32.wrap (V.history.length : Int) > 10000 ∨
      int32.wrap (V.counts.length : Int) ≤ 0) := by
    simp only [gt_iff_lt, int32.le_def, int32.lt_def, hHv, hNv, int32.ofNat_def,
      int32.wrap_val]
    omega
  have hhist : (if int32.wrap (V.history.length : Int) > 0 then
        istreamState.read ⟨encodeInts V.history ++ (encodeFloatPairs V.counts ++ R), true⟩
          (4 * V.history.length)
      else ([], ⟨encodeInts V.history ++ (encodeFloatPairs V.counts ++ R), true⟩))
      = (encodeInts V.history, ⟨encodeFloatPairs V.counts ++ R, true⟩) := by
    by_cases h0 : V.history = []
    · have : ¬ (int32.wrap (V.history.length : Int) > 0) := by
        simp [h0, int32.lt_def, int32.ofNat_def, int32.wrap_val]
      rw [if_neg this]
      simp [h0, encodeInts]
    · have hp : 0 < V.history.length := List.length_pos.mpr h0
      have : int32.wrap (V.history.length : Int) > 0 := by
        simp only [gt_iff_lt, int32.lt_def, hHv, int32.ofNat_def, int32.wrap_val]
        omega
      rw [if_pos this, istreamState.read_append _ _ _ (encodeInts_length V.history)]
  rw [FloatLmState.Read]
  simp only [istreamState.read_append _ _ 4 (int32.toBytes_length _),
    istreamState.read_append _ _ 4 (float.float_toBytes_length _), decodeInts_toBytes,
    List.getD_cons_zero, Bool.true_eq_false, if_false, if_neg hc2, hHv, hNv, Int.toNat_ofNat,
    hhist, istreamState.read_append _ _ _ (encodeFloatPairs_length V.counts),
    decodeFloat_toBytes, decodeInts_encodeInts, decodeFloatPairs_encodeFloatPairs]
  split <;> rfl

theorem FloatLmState.Write_many_counts (hs : List int32) (t d : float)
    (cs : List (int32 × float)) (hlen : cs.length = 2147483648) :
    FloatLmState.Write ⟨hs, t, d, cs⟩ = none := by
  have e : int32.wrap ((cs.length : Nat) : Int) = int32.wrap (-2147483648) := by
    rw [hlen]; decide
  have hc : ¬ (int32.wrap (-2147483648) > 0) := by decide
  rw [FloatLmState.Write]
  simp only [e, if_pos hc]

/-- C13, counterexample (begin-marker 1, end-marker 2).  First, the record with no history,
`total` and `discount` `+0.0f` and counts `[(1, 1.0f)]` has non-empty counts and a history
of length 0; `Write` produces bytes, and `Read` on them, on a draw that samples `Check`,
fails, because the word is the begin-marker.  Second, a record with 2147483648 entries has
non-empty counts, but its count size is negative as an `int32` and `Write` stops in its
assertion. -/
theorem FloatLmState.Float_round_trip_counterexample :
    (FloatLmState.Write ⟨[], ⟨0⟩, ⟨0⟩, [(1, ⟨1065353216⟩)]⟩).map
      (fun bytes => (FloatLmState.Read 1 2 0 bytes).1) = some none ∧
    FloatLmState.Write ⟨[], ⟨0⟩, ⟨0⟩, List.replicate 2147483648 (3, ⟨1065353216⟩)⟩ = none := by
  refine ⟨by decide, ?_⟩
  exact FloatLmState.Write_many_counts _ _ _ _ (List.length_replicate _ _)

/-- C13 (amended): Float round trip with the header scalars.  For every `FloatLmState` `V`
with non-empty counts of fewer than `2^31` entries and a history of length at most 10000,
`Write` produces the bytes of `historyLen`, `numCounts`, then `total` and `discount`, then
the history, then the entries; and on every draw on which `Read` does not stop in `Check`
(the draw does not sample it, or `V` passes `FloatLmState::Check`), `Read` on these bytes
succeeds, consumes all of them and reproduces `V`: history, entries, `total` and
`discount`, bit for bit. -/
theorem FloatLmState.Float_round_trip (kBosSymbol kEosSymbol : int32) (rr : Nat) (V : FloatLmState)
    (hne : V.counts ≠ []) (hH : V.history.length ≤ 10000)
    (hN : V.counts.length < 2147483648)
    (hchk : rr % 10 = 0 → FloatLmState.Check kBosSymbol kEosSymbol V = true) :
    ∃ (bytes : List byte) (H N : int32),
      FloatLmState.Write V = some bytes ∧
      H.val = V.history.length ∧ N.val = V.counts.length ∧
      bytes = H.toBytes ++ (N.toBytes ++ (V.total.toBytes ++ (V.discount.toBytes ++
        (encodeInts V.history ++ encodeFloatPairs V.counts)))) ∧
      FloatLmState.Read kBosSymbol kEosSymbol rr bytes = (some V, []) := by
  refine ⟨_, int32.wrap V.history.length, int32.wrap V.counts.length,
    FloatLmState.Float_Write_eq V hne (by omega) hN, ?_, ?_, rfl, ?_⟩
  · rw [int32.wrap_val]; omega
  · rw [int32.wrap_val]; omega
  · have h := FloatLmState.Float_Read_encode kBosSymbol kEosSymbol rr V [] hne hH hN
    rw [List.append_nil] at h
    rw [h]
    have hc : ¬ (rr % 10 = 0 ∧ FloatLmState.Check kBosSymbol kEosSymbol V = false) := by
      rintro ⟨h1, h2⟩
      rw [hchk h1] at h2
      exact Bool.noConfusion h2
    rw [if_neg hc]

/-- Witness for C13 (amended): the record with history `[3, 4]`, `total` 2.0f, `discount`
1.0f and counts `[(5, 1.0f), (6, +0.0f)]`, on a draw that samples `Check`. -/
theorem FloatLmState.Float_round_trip_witness :
    ∃ (bytes : List byte) (H N : int32),
      FloatLmState.Write ⟨[3, 4], ⟨1073741824⟩, ⟨1065353216⟩,
        [(5, ⟨1065353216⟩), (6, ⟨0⟩)]⟩ = some bytes ∧
      H.val = (2 : Nat) ∧ N.val = (2 : Nat) ∧
      bytes = H.toBytes ++ (N.toBytes ++ ((⟨1073741824⟩ : float).toBytes ++
        ((⟨1065353216⟩ : float).toBytes ++
          (encodeInts [3, 4] ++ encodeFloatPairs [(5, ⟨1065353216⟩), (6, ⟨0⟩)])))) ∧
      FloatLmState.Read 1 2 0 bytes =
        (some ⟨[3, 4], ⟨1073741824⟩, ⟨1065353216⟩, [(5, ⟨1065353216⟩), (6, ⟨0⟩)]⟩, []) :=
  FloatLmState.Float_round_trip 1 2 0
    ⟨[3, 4], ⟨1073741824⟩, ⟨1065353216⟩, [(5, ⟨1065353216⟩), (6, ⟨0⟩)]⟩
    (by decide) (by decide) (by decide) (fun _ => by decide)

/-! ## GeneralLmStateBuilder: representation invariant -/

namespace GeneralLmStateBuilder

variable {Count : Type}

theorem wrap_nat_val (i : Nat) (h : i < 2147483648) : (int32.wrap (i : Int)).val = i := by
  rw [int32.wrap_val]; omega

theorem wrap_nat_inj (i j : Nat) (hi : i < 4294967296) (hj : j < 4294967296)
    (h : int32.wrap (i : Int) = int32.wrap (j : Int)) : i = j := by
  have := congrArg int32.val h
  rw [int32.wrap_val, int32.wrap_val] at this
  omega

theorem vectorAt_of_val (counts : List Count) (p : int32) (i : Nat) (h : p.val = i) :
    vectorAt counts p = counts.get? i := by
  have hneg : ¬ p.val < 0 := by omega
  rw [vectorAt, if_neg hneg, h, Int.toNat_ofNat]

theorem lookup_eq_none_iff {β : Type} (w : int32) (l : List (int32 × β)) :
    l.lookup w = none ↔ w ∉ l.map Prod.fst := by
  induction l with
  | nil => simp
  | cons a l ih =>
    obtain ⟨k, v⟩ := a
    by_cases h : w = k
    · subst h; simp [List.lookup]
    · have h2 : (w == k) = false := by simpa using h
      simp [List.lookup, h2, ih, h]

theorem lookup_eq_some_iff {β : Type} (w : int32) (p : β) (l : List (int32 × β))
    (nd : (l.map Prod.fst).Nodup) : l.lookup w = some p ↔ (w, p) ∈ l := by
  induction l with
  | nil => simp
  | cons a l ih =>
    obtain ⟨k, v⟩ := a
    simp only [List.map_cons, List.nodup_cons] at nd
    by_cases h : w = k
    · subst h
      have hno : ∀ q, (w, q) ∉ l := fun q hq => nd.1 (List.mem_map_of_mem Prod.fst hq)
      simp [List.lookup, hno, eq_comm]
    · have h2 : (w == k) = false := by simpa using h
      simp [List.lookup, h2, ih nd.2, h]

theorem lookup_append_singleton {β : Type} (w k : int32) (v : β) (l : List (int32 × β)) :
    (l ++ [(k, v)]).lookup w =
      (l.lookup w).orElse fun _ => if w = k then some v else none := by
  induction l with
  | nil =>
    by_cases h : w = k
    · subst h; simp [List.lookup]
    · have h2 : (w == k) = false := by simpa using h
      simp [List.lookup, h2, h]
  | cons a l ih =>
    obtain ⟨k2, v2⟩ := a
    by_cases h : w = k2
    · subst h; simp [List.lookup]
    · have h2 : (w == k2) = false := by simpa using h
      simp [List.lookup, h2, ih]

theorem Inv.create : Inv (create : GeneralLmStateBuilder Count) := by
  simp [Inv, GeneralLmStateBuilder.create]

theorem Inv.length_eq {b : GeneralLmStateBuilder Count} (hi : Inv b) :
    b.word_to_pos.length = b.counts.length := by
  have := congrArg List.length hi.2.1
  simpa using this

theorem Inv.pos_spec {b : GeneralLmStateBuilder Count} (hi : Inv b) {w p : int32}
    (h : (w, p) ∈ b.word_to_pos) : ∃ i : Nat, i < b.counts.length ∧ p.val = i := by
  have hp : p ∈ b.word_to_pos.map Prod.snd := List.mem_map_of_mem Prod.snd h
  rw [hi.2.1] at hp
  obtain ⟨i, hi1, hi2⟩ := List.mem_map.mp hp
  have hlt := List.mem_range.mp hi1
  have hle := hi.2.2
  refine ⟨i, hlt, ?_⟩
  rw [← hi2]
  exact wrap_nat_val i (by omega)

theorem range_wrap_nodup (n : Nat) (hn : n ≤ 4294967296) :
    ((List.range n).map fun i : Nat => int32.wrap (i : Int)).Nodup := by
  refine List.Nodup.map_on ?_ (List.nodup_range n)
  intro x hx y hy hxy
  have hx := List.mem_range.mp hx
  have hy := List.mem_range.mp hy
  exact wrap_nat_inj x y (by omega) (by omega) hxy

theorem Inv.word_eq {b : GeneralLmStateBuilder Count} (hi : Inv b) {w w2 p : int32}
    (h : (w, p) ∈ b.word_to_pos) (h2 : (w2, p) ∈ b.word_to_pos) : w = w2 := by
  have nd : (b.word_to_pos.map Prod.snd).Nodup := by
    rw [hi.2.1]; exact range_wrap_nodup _ (by have := hi.2.2; omega)
  have := List.inj_on_of_nodup_map nd h h2 rfl
  exact congrArg Prod.fst this

theorem Inv.length_le_of_subset {b : GeneralLmStateBuilder Count} (hi : Inv b)
    (W : List int32) (h : b.word_to_pos.map Prod.fst ⊆ W) :
    b.counts.length ≤ W.dedup.length := by
  have h1 : b.word_to_pos.map Prod.fst ⊆ W.dedup := fun x hx => List.mem_dedup.mpr (h hx)
  have := (List.Nodup.subperm hi.1 h1).length_le
  rw [List.length_map, hi.length_eq] at this
  exact this

theorem addWith_absent (seed : Count) (add : Count → Count) (b : GeneralLmStateBuilder Count)
    (w : int32) (hl : b.word_to_pos.lookup w = none) :
    addWith seed add b w =
      some ⟨b.word_to_pos ++ [(w, int32.wrap (b.counts.length : Int))], b.counts ++ [seed]⟩ := by
  simp [addWith, hl]

theorem addWith_present (seed : Count) (add : Count → Count) (b : GeneralLmStateBuilder Count)
    (w pos : int32) (hl : b.word_to_pos.lookup w = some pos) :
    addWith seed add b w =
      if pos < int32.wrap (b.counts.length : Int) then
        (vectorAt b.counts pos).map fun c =>
          ⟨b.word_to_pos, b.counts.set pos.val.toNat (add c)⟩
      else none := by
  simp only [addWith, hl]

theorem value_absent (seed : Count) (b : GeneralLmStateBuilder Count) (w q : int32)
    (hi : Inv b) (hl : b.word_to_pos.lookup w = none)
    (hq : vectorAt (b.counts ++ [seed]) q = some seed) (w2 : int32) :
    value (⟨b.word_to_pos ++ [(w, q)], b.counts ++ [seed]⟩ : GeneralLmStateBuilder Count) w2 =
      if w2 = w then some seed else value b w2 := by
  simp only [value, lookup_append_singleton]
  cases hl2 : b.word_to_pos.lookup w2 with
  | none =>
    by_cases hw : w2 = w
    · subst hw
      simp [hq]
    · simp [hw]
  | some p =>
    have hw : w2 ≠ w := by
      intro h; subst h; rw [hl] at hl2; exact Option.noConfusion hl2
    obtain ⟨i, hlt, hpv⟩ := hi.pos_spec ((lookup_eq_some_iff w2 p _ hi.1).mp hl2)
    have h2 : vectorAt (b.counts ++ [seed]) p = vectorAt b.counts p := by
      rw [vectorAt_of_val _ _ _ hpv, vectorAt_of_val _ _ _ hpv]
      simp [List.getElem?_append_left hlt]
    simp [hw, h2]

theorem addWith_spec (seed : Count) (add : Count → Count) (b : GeneralLmStateBuilder Count)
    (w : int32) (hi : Inv b) (hn : b.counts.length < 2147483648) :
    ∃ b2, addWith seed add b w = some b2 ∧ Inv b2 ∧
      b2.counts.length ≤ b.counts.length + 1 ∧
      (∀ k ∈ b2.word_to_pos.map Prod.fst, k = w ∨ k ∈ b.word_to_pos.map Prod.fst) ∧
      ∀ w2, value b2 w2 =
        if w2 = w then some (match value b w with
          | none => seed
          | some c => add c)
        else value b w2 := by
  have hqv := wrap_nat_val _ hn
  cases hl : b.word_to_pos.lookup w with
  | none =>
    have hnot : w ∉ b.word_to_pos.map Prod.fst := (lookup_eq_none_iff w _).mp hl
    have hq : vectorAt (b.counts ++ [seed]) (int32.wrap (b.counts.length : Int)) = some seed := by
      rw [vectorAt_of_val _ _ _ hqv]
      simp
    have hvb : value b w = none := by rw [value, hl]; rfl
    refine ⟨⟨b.word_to_pos ++ [(w, int32.wrap (b.counts.length : Int))], b.counts ++ [seed]⟩,
      addWith_absent seed add b w hl, ?_, ?_, ?_, ?_⟩
    · refine ⟨?_, ?_, ?_⟩
      · simp only [List.map_append, List.map_cons, List.map_nil]
        rw [List.nodup_append]
        refine ⟨hi.1, List.nodup_singleton _, ?_⟩
        intro a ha hb
        simp only [List.mem_singleton] at hb
        subst hb
        exact hnot ha
      · simp [hi.2.1, List.range_succ]
      · simp only [List.length_append, List.length_singleton]; omega
    · simp
    · intro k hk
      simp only [List.map_append, List.map_cons, List.map_nil, List.mem_append,
        List.mem_singleton] at hk
      rcases hk with hk | hk
      · exact Or.inr hk
      · exact Or.inl hk
    · intro w2
      rw [value_absent seed b w _ hi hl hq w2, hvb]
  | some pos =>
    have hmem : (w, pos) ∈ b.word_to_pos := (lookup_eq_some_iff w pos _ hi.1).mp hl
    obtain ⟨i, hlt, hpv⟩ := hi.pos_spec hmem
    have hcond : pos < int32.wrap (b.counts.length : Int) := by
      rw [int32.lt_def, hpv, hqv]
      exact_mod_cast hlt
    have hget : vectorAt b.counts pos = some (b.counts.get ⟨i, hlt⟩) := by
      rw [vectorAt_of_val _ _ _ hpv]; exact List.get?_eq_get hlt
    have htn : pos.val.toNat = i := by rw [hpv, Int.toNat_ofNat]
    have hvb : value b w = some (b.counts.get ⟨i, hlt⟩) := by
      rw [value, hl, Option.some_bind, hget]
    refine ⟨⟨b.word_to_pos, b.counts.set i (add (b.counts.get ⟨i, hlt⟩))⟩, ?_, ?_, ?_, ?_, ?_⟩
    · rw [addWith_present seed add b w pos hl, if_pos hcond, hget, htn, Option.map_some']
    · refine ⟨hi.1, ?_, ?_⟩
      · simp [hi.2.1]
      · simp only [List.length_set]; exact hi.2.2
    · simp
    · intro k hk
      exact Or.inr hk
    · intro w2
      rw [hvb]
      by_cases hw : w2 = w
      · subst hw
        rw [if_pos rfl, value, hl, Option.some_bind, vectorAt_of_val _ _ _ hpv]
        simp [hlt]
      · rw [if_neg hw]
        simp only [value]
        cases hl2 : b.word_to_pos.lookup w2 with
        | none => rfl
        | some p =>
          have hmem2 : (w2, p) ∈ b.word_to_pos := (lookup_eq_some_iff w2 p _ hi.1).mp hl2
          obtain ⟨j, hjlt, hjv⟩ := hi.pos_spec hmem2
          have hne : i ≠ j := by
            intro h; subst h
            have hpp : p = pos := by
              apply int32.ext; rw [hjv, hpv]
            rw [hpp] at hmem2
            exact hw (hi.word_eq hmem2 hmem)
          rw [Option.some_bind, Option.some_bind, vectorAt_of_val _ _ _ hjv,
            vectorAt_of_val _ _ _ hjv]
          simp [List.getElem?_set_ne hne]

theorem addWith_length (seed : Count) (add : Count → Count)
    (b b2 : GeneralLmStateBuilder Count) (w : int32) (h : addWith seed add b w = some b2) :
    b.counts.length ≤ b2.counts.length := by
  cases hl : b.word_to_pos.lookup w with
  | none =>
    rw [addWith_absent seed add b w hl] at h
    rw [← Option.some.inj h]
    simp
  | some pos =>
    rw [addWith_present seed add b w pos hl] at h
    split_ifs at h with hc
    obtain ⟨c, _, hc2⟩ := Option.map_eq_some'.mp h
    rw [← hc2]
    simp

theorem addWith_full (seed : Count) (add : Count → Count)
    (b : GeneralLmStateBuilder Count) (w pos : int32)
    (hl : b.word_to_pos.lookup w = some pos) (heq : b.counts.length = 2147483648) :
    addWith seed add b w = none := by
  have hcond : ¬ pos < int32.wrap (b.counts.length : Int) := by
    have hq : (int32.wrap (b.counts.length : Int)).val = -2147483648 := by
      rw [int32.wrap_val, heq]; rfl
    rw [int32.lt_def, hq]
    have := pos.lo
    omega
  rw [addWith_present seed add b w pos hl, if_neg hcond]

theorem addWith_inv_or_big (seed : Count) (add : Count → Count)
    (b b2 : GeneralLmStateBuilder Count) (w : int32) (h : addWith seed add b w = some b2)
    (hb : Inv b ∨ 2147483648 < b.counts.length) :
    Inv b2 ∨ 2147483648 < b2.counts.length := by
  have hlen := addWith_length seed add b b2 w h
  rcases hb with hi | hbig
  · by_cases hn : b.counts.length < 2147483648
    · obtain ⟨b3, h3, hi3, _⟩ := addWith_spec seed add b w hi hn
      rw [h] at h3
      rw [Option.some.inj h3]
      exact Or.inl hi3
    · have hle := hi.2.2
      have heq : b.counts.length = 2147483648 := by omega
      cases hl : b.word_to_pos.lookup w with
      | none =>
        rw [addWith_absent seed add b w hl] at h
        rw [← Option.some.inj h]
        right
        simp only [List.length_append, List.length_singleton]
        omega
      | some pos =>
        rw [addWith_full seed add b w pos hl heq] at h
        exact Option.noConfusion h
  · right; omega

end GeneralLmStateBuilder

namespace GeneralLmStateBuilder

variable {Count : Type}

/-! ## GeneralLmStateBuilder: sequences of calls -/

theorem step_cons (ops : CountOps Count) (w : int32) (e : int32 × Contribution Count)
    (v : int32 → Option Count) :
    (if w = e.1 then some (match v e.1 with
        | none => seed ops e.2
        | some c => merge ops c e.2)
      else v w) = step ops w (v w) e := by
  unfold step
  by_cases hw : w = e.1
  · subst hw; simp
  · have hw2 : ¬ e.1 = w := fun h => hw h.symm
    rw [if_neg hw, if_neg hw2]

theorem addAll_spec (ops : CountOps Count) (es : List (int32 × Contribution Count)) :
    ∀ b : GeneralLmStateBuilder Count, Inv b → b.counts.length + es.length ≤ 2147483648 →
      ∃ b2, addAll ops es b = some b2 ∧ Inv b2 ∧
        b2.counts.length ≤ b.counts.length + es.length ∧
        ∀ w, value b2 w = es.foldl (step ops w) (value b w) := by
  induction es with
  | nil => intro b hi _; exact ⟨b, rfl, hi, Nat.le_refl _, fun _ => rfl⟩
  | cons e es ih =>
    intro b hi hroom
    rw [List.length_cons] at hroom
    obtain ⟨b1, h1, hi1, hlen1, _, hv1⟩ :=
      addWith_spec (seed ops e.2) (fun c => merge ops c e.2) b e.1 hi (by omega)
    obtain ⟨b2, h2, hi2, hlen2, hv2⟩ := ih b1 hi1 (by omega)
    refine ⟨b2, ?_, hi2, ?_, ?_⟩
    · rw [addAll, h1, Option.some_bind, h2]
    · rw [List.length_cons]; omega
    · intro w
      rw [hv2 w, hv1 w, List.foldl_cons, step_cons ops w e (value b)]

theorem addAll_spec_words (ops : CountOps Count) (W : List int32)
    (hW : W.dedup.length < 2147483648) (es : List (int32 × Contribution Count)) :
    ∀ b : GeneralLmStateBuilder Count, Inv b → b.word_to_pos.map Prod.fst ⊆ W →
      es.map Prod.fst ⊆ W →
      ∃ b2, addAll ops es b = some b2 ∧ Inv b2 ∧ b2.word_to_pos.map Prod.fst ⊆ W ∧
        ∀ w, value b2 w = es.foldl (step ops w) (value b w) := by
  induction es with
  | nil => intro b hi hk _; exact ⟨b, rfl, hi, hk, fun _ => rfl⟩
  | cons e es ih =>
    intro b hi hk hsub
    have hroom := hi.length_le_of_subset W hk
    have he : e.1 ∈ W := hsub (List.mem_map_of_mem Prod.fst (List.mem_cons_self _ _))
    have hsub2 : es.map Prod.fst ⊆ W := fun x hx => hsub (by
      rw [List.map_cons]; exact List.mem_cons_of_mem _ hx)
    obtain ⟨b1, h1, hi1, _, hk1, hv1⟩ :=
      addWith_spec (seed ops e.2) (fun c => merge ops c e.2) b e.1 hi (by omega)
    have hk1W : b1.word_to_pos.map Prod.fst ⊆ W := by
      intro k hkm
      rcases hk1 k hkm with h | h
      · rw [h]; exact he
      · exact hk h
    obtain ⟨b2, h2, hi2, hk2, hv2⟩ := ih b1 hi1 hk1W hsub2
    refine ⟨b2, ?_, hi2, hk2, ?_⟩
    · rw [addAll, h1, Option.some_bind, h2]
    · intro w
      rw [hv2 w, hv1 w, List.foldl_cons, step_cons ops w e (value b)]

theorem addAll_append (ops : CountOps Count) (es₁ es₂ : List (int32 × Contribution Count)) :
    ∀ b : GeneralLmStateBuilder Count,
      addAll ops (es₁ ++ es₂) b = (addAll ops es₁ b).bind (addAll ops es₂) := by
  induction es₁ with
  | nil => intro b; rfl
  | cons e es ih =>
    intro b
    simp only [List.cons_append, addAll]
    cases addWith (seed ops e.2) (fun c => merge ops c e.2) b e.1 with
    | none => rfl
    | some b1 => exact ih b1

theorem AddCountsLoop_eq (ops : CountOps Count) (scale : float) (cs : List (int32 × int32)) :
    ∀ b : GeneralLmStateBuilder Count,
      AddCountsLoop ops scale cs b =
        addAll ops (cs.map fun e => (e.1, Contribution.scaled scale e.2)) b := by
  induction cs with
  | nil => intro b; rfl
  | cons c cs ih =>
    intro b
    simp only [AddCountsLoop, List.map_cons, addAll, ih]
    rfl

theorem AddCountsGeneralLoop_eq (ops : CountOps Count) (cs : List (int32 × Count)) :
    ∀ b : GeneralLmStateBuilder Count,
      AddCountsGeneralLoop ops cs b =
        addAll ops (cs.map fun e => (e.1, Contribution.full e.2)) b := by
  induction cs with
  | nil => intro b; rfl
  | cons c cs ih =>
    intro b
    simp only [AddCountsGeneralLoop, List.map_cons, addAll, ih]
    rfl

theorem Call.apply_eq (ops : CountOps Count) (b : GeneralLmStateBuilder Count)
    (c : Call Count) : c.apply ops b = addAll ops c.entries b := by
  cases c with
  | addCount word count =>
    simp only [Call.apply, Call.entries, addAll, Option.bind_some]; rfl
  | addCountScaled word scale num_pieces =>
    simp only [Call.apply, Call.entries, addAll, Option.bind_some]; rfl
  | addCountCount word count =>
    simp only [Call.apply, Call.entries, addAll, Option.bind_some]; rfl
  | addCounts lm_state scale =>
    simp only [Call.apply, Call.entries, AddCounts, AddCountsLoop_eq]
  | addCountsGeneral lm_state =>
    simp only [Call.apply, Call.entries, AddCountsGeneral, AddCountsGeneralLoop_eq]

theorem run_eq_addAll (ops : CountOps Count) (calls : List (Call Count)) :
    ∀ b : GeneralLmStateBuilder Count,
      run ops calls b = addAll ops (calls.flatMap Call.entries) b := by
  induction calls with
  | nil => intro b; rfl
  | cons c cs ih =>
    intro b
    simp only [run, List.flatMap_cons, addAll_append, Call.apply_eq]
    cases addAll ops c.entries b with
    | none => rfl
    | some b1 => simp only [Option.some_bind, ih]

theorem runSteps_calls (ops : CountOps Count) (calls : List (Call Count)) :
    ∀ b : GeneralLmStateBuilder Count,
      runSteps ops (calls.map Step.call) b = run ops calls b := by
  induction calls with
  | nil => intro b; rfl
  | cons c cs ih =>
    intro b
    simp only [List.map_cons, runSteps, run, Step.apply]
    cases c.apply ops b with
    | none => rfl
    | some b1 => exact ih b1

theorem run_spec (ops : CountOps Count) (W : List int32) (hW : W.dedup.length < 2147483648)
    (calls : List (Call Count)) (hsub : (calls.flatMap Call.entries).map Prod.fst ⊆ W) :
    ∃ b, run ops calls create = some b ∧ Inv b ∧
      ∀ w, value b w = (calls.flatMap Call.entries).foldl (step ops w) none := by
  obtain ⟨b, h, hi, _, hv⟩ := addAll_spec_words ops W hW (calls.flatMap Call.entries) create
    Inv.create (by intro x hx; simp [create] at hx) hsub
  exact ⟨b, by rw [run_eq_addAll, h], hi, hv⟩

/-! ## GeneralLmStateBuilder: states that have left the int32 range -/

theorem addAll_inv_or_big (ops : CountOps Count) (es : List (int32 × Contribution Count)) :
    ∀ b b2 : GeneralLmStateBuilder Count, addAll ops es b = some b2 →
      (Inv b ∨ 2147483648 < b.counts.length) → (Inv b2 ∨ 2147483648 < b2.counts.length) := by
  induction es with
  | nil =>
    intro b b2 h hb
    rw [addAll] at h
    rw [← Option.some.inj h]
    exact hb
  | cons e es ih =>
    intro b b2 h hb
    rw [addAll] at h
    cases h1 : addWith (seed ops e.2) (fun c => merge ops c e.2) b e.1 with
    | none => rw [h1] at h; exact Option.noConfusion h
    | some b1 =>
      rw [h1, Option.some_bind] at h
      exact ih b1 b2 h (addWith_inv_or_big _ _ b b1 e.1 h1 hb)

theorem runSteps_inv_or_big (ops : CountOps Count) (steps : List (Step Count)) :
    ∀ b b2 : GeneralLmStateBuilder Count, runSteps ops steps b = some b2 →
      (Inv b ∨ 2147483648 < b.counts.length) → (Inv b2 ∨ 2147483648 < b2.counts.length) := by
  induction steps with
  | nil =>
    intro b b2 h hb
    rw [runSteps] at h
    rw [← Option.some.inj h]
    exact hb
  | cons st sts ih =>
    intro b b2 h hb
    rw [runSteps] at h
    cases st with
    | call c =>
      rw [Step.apply, Call.apply_eq] at h
      cases h1 : addAll ops c.entries b with
      | none => rw [h1] at h; exact Option.noConfusion h
      | some b1 =>
        rw [h1, Option.some_bind] at h
        exact ih b1 b2 h (addAll_inv_or_big ops c.entries b b1 h1 hb)
    | clear =>
      rw [Step.apply, Option.some_bind] at h
      exact ih (Clear b) b2 h (Or.inl Inv.create)

theorem reachable_inv (ops : CountOps Count) (steps : List (Step Count))
    (b : GeneralLmStateBuilder Count) (hreach : runSteps ops steps create = some b)
    (hsize : b.counts.length ≤ 2147483648) : Inv b := by
  rcases runSteps_inv_or_big ops steps create b hreach (Or.inl Inv.create) with h | h
  · exact h
  · omega

/-! ## GeneralLmStateBuilder::Output -/

theorem Output_loop (pairs : List (int32 × int32)) (counts : List Count) :
    ∀ (todo done : List (int32 × int32)) (acc : List (int32 × Count)),
      pairs = done ++ todo → (∀ p ∈ todo, ∃ c, vectorAt counts p.2 = some c) →
      forLoopFrom
        (fun i output => (pairs.get? i).bind fun p => (vectorAt counts p.2).map fun c =>
          output ++ [(p.1, c)])
        todo.length done.length acc
        = some (acc ++ todo.filterMap fun p => (vectorAt counts p.2).map fun c => (p.1, c)) := by
  intro todo
  induction todo with
  | nil => intro done acc _ _; simp [forLoopFrom]
  | cons p t ih =>
    intro done acc hsplit hin
    have hget : pairs.get? done.length = some p := by
      rw [hsplit]; exact get?_length_append done t p
    obtain ⟨c, hc⟩ := hin p (List.mem_cons_self _ _)
    rw [List.length_cons, forLoopFrom, hget, Option.some_bind, hc, Option.map_some',
      Option.some_bind]
    have hstep := ih (done ++ [p]) (acc ++ [(p.1, c)]) (by simp [hsplit])
      (fun q hq => hin q (List.mem_cons_of_mem _ hq))
    rw [List.length_append, List.length_singleton] at hstep
    rw [hstep, List.filterMap_cons, hc]
    simp

theorem Output_loop_none (pairs : List (int32 × int32)) (counts : List Count) :
    ∀ (todo done : List (int32 × int32)) (acc : List (int32 × Count)),
      pairs = done ++ todo → (∃ p ∈ todo, vectorAt counts p.2 = none) →
      forLoopFrom
        (fun i output => (pairs.get? i).bind fun p => (vectorAt counts p.2).map fun c =>
          output ++ [(p.1, c)])
        todo.length done.length acc = none := by
  intro todo
  induction todo with
  | nil =>
    intro done acc _ hbad
    obtain ⟨p, hp, _⟩ := hbad
    exact absurd hp (List.not_mem_nil _)
  | cons p t ih =>
    intro done acc hsplit hbad
    have hget : pairs.get? done.length = some p := by
      rw [hsplit]; exact get?_length_append done t p
    rw [List.length_cons, forLoopFrom, hget, Option.some_bind]
    cases hc : vectorAt counts p.2 with
    | none => rfl
    | some c =>
      rw [Option.map_some', Option.some_bind]
      have hbad2 : ∃ q ∈ t, vectorAt counts q.2 = none := by
        obtain ⟨q, hq, hqn⟩ := hbad
        rcases List.mem_cons.mp hq with h | h
        · rw [h, hc] at hqn; exact Option.noConfusion hqn
        · exact ⟨q, h, hqn⟩
      have hstep := ih (done ++ [p]) (acc ++ [(p.1, c)]) (by simp [hsplit]) hbad2
      rw [List.length_append, List.length_singleton] at hstep
      exact hstep

theorem Output_none (b : GeneralLmStateBuilder Count)
    (hbad : ∃ p ∈ b.word_to_pos, vectorAt b.counts p.2 = none) : Output b = none := by
  by_cases hne : b.counts.length ≠ b.word_to_pos.length
  · rw [Output, if_pos hne]
  · have hlen : b.counts.length = (List.insertionSort pairLE b.word_to_pos).length := by
      rw [List.length_insertionSort]; exact not_not.mp hne
    have hbad2 : ∃ p ∈ List.insertionSort pairLE b.word_to_pos,
        vectorAt b.counts p.2 = none := by
      obtain ⟨p, hp, hpn⟩ := hbad
      exact ⟨p, (List.perm_insertionSort pairLE b.word_to_pos).mem_iff.mpr hp, hpn⟩
    have hloop := Output_loop_none (List.insertionSort pairLE b.word_to_pos) b.counts
      (List.insertionSort pairLE b.word_to_pos) [] [] rfl hbad2
    rw [Output, if_neg hne]
    simp only []
    rw [hlen]
    exact hloop

theorem Output_spec (b : GeneralLmStateBuilder Count) (hi : Inv b) :
    ∃ out, Output b = some out ∧ List.Pairwise (fun x y => x.1 < y.1) out ∧
      ∀ w c, (w, c) ∈ out ↔ value b w = some c := by
  have hperm := List.perm_insertionSort pairLE b.word_to_pos
  have hsorted := List.sorted_insertionSort pairLE b.word_to_pos
  have hmem : ∀ p, p ∈ List.insertionSort pairLE b.word_to_pos ↔ p ∈ b.word_to_pos :=
    fun p => hperm.mem_iff
  have hin : ∀ p ∈ List.insertionSort pairLE b.word_to_pos,
      ∃ c, vectorAt b.counts p.2 = some c := by
    intro p hp
    obtain ⟨i, hlt, hpv⟩ := hi.pos_spec (w := p.1) (p := p.2) ((hmem p).mp hp)
    exact ⟨b.counts.get ⟨i, hlt⟩, by rw [vectorAt_of_val _ _ _ hpv]; exact List.get?_eq_get hlt⟩
  have hlen : (List.insertionSort pairLE b.word_to_pos).length = b.counts.length := by
    rw [List.length_insertionSort, hi.length_eq]
  have hloop := Output_loop (List.insertionSort pairLE b.word_to_pos) b.counts
    (List.insertionSort pairLE b.word_to_pos) [] [] rfl hin
  rw [hlen] at hloop
  have hne : ¬ (b.counts.length ≠ b.word_to_pos.length) := by
    rw [hi.length_eq]; simp
  refine ⟨[] ++ List.filterMap (fun p => Option.map (fun c => (p.1, c)) (vectorAt b.counts p.2))
    (List.insertionSort pairLE b.word_to_pos), ?_, ?_, ?_⟩
  · rw [Output, if_neg hne]
    exact hloop
  · rw [List.nil_append]
    have hnd : List.Pairwise (fun x y : int32 × int32 => x.1 ≠ y.1)
        (List.insertionSort pairLE b.word_to_pos) := by
      have h1 : ((List.insertionSort pairLE b.word_to_pos).map Prod.fst).Nodup :=
        (hperm.map Prod.fst).nodup_iff.mpr hi.1
      exact (List.pairwise_map).mp h1
    have hstrict : List.Pairwise (fun x y : int32 × int32 => x.1 < y.1)
        (List.insertionSort pairLE b.word_to_pos) := by
      refine (List.Pairwise.and hsorted hnd).imp ?_
      intro x y hxy
      rcases hxy.1 with h | h
      · exact h
      · exact absurd h.1 hxy.2
    refine List.Pairwise.filterMap _ ?_ hstrict
    intro x y hxy u hu v hv
    simp only [Option.mem_def, Option.map_eq_some'] at hu hv
    obtain ⟨_, _, rfl⟩ := hu
    obtain ⟨_, _, rfl⟩ := hv
    exact hxy
  · intro w c
    rw [List.nil_append, List.mem_filterMap]
    simp only [Option.map_eq_some', Prod.mk.injEq, value, Option.bind_eq_some]
    constructor
    · rintro ⟨⟨w2, p⟩, hp, c2, hc2, rfl, rfl⟩
      exact ⟨p, (lookup_eq_some_iff _ p _ hi.1).mpr ((hmem _).mp hp), hc2⟩
    · rintro ⟨p, hl, hc⟩
      exact ⟨(w, p), (hmem _).mpr ((lookup_eq_some_iff w p _ hi.1).mp hl), c, hc, rfl, rfl⟩

theorem Output_enumeration (b : GeneralLmStateBuilder Count) (l : List (int32 × int32))
    (h : l.Perm b.word_to_pos) :
    Output (⟨l, b.counts⟩ : GeneralLmStateBuilder Count) = Output b := by
  have hs : List.insertionSort pairLE l = List.insertionSort pairLE b.word_to_pos :=
    List.eq_of_perm_of_sorted
      (((List.perm_insertionSort pairLE l).trans h).trans
        (List.perm_insertionSort pairLE b.word_to_pos).symm)
      (List.sorted_insertionSort pairLE l) (List.sorted_insertionSort pairLE b.word_to_pos)
  simp only [Output, hs, h.length_eq]

end GeneralLmStateBuilder

namespace GeneralLmStateBuilder

variable {Count : Type}

/-! ## GeneralLmStateBuilder: lists sorted by word, folds over the calls -/

theorem strictly_sorted_ext (l₁ l₂ : List (int32 × Count))
    (h₁ : List.Pairwise (fun x y => x.1 < y.1) l₁)
    (h₂ : List.Pairwise (fun x y => x.1 < y.1) l₂)
    (hmem : ∀ e, e ∈ l₁ ↔ e ∈ l₂) : l₁ = l₂ := by
  induction l₁ generalizing l₂ with
  | nil =>
    cases l₂ with
    | nil => rfl
    | cons y l₂ => exact absurd ((hmem y).mpr (List.mem_cons_self _ _)) (List.not_mem_nil _)
  | cons x l₁ ih =>
    cases l₂ with
    | nil => exact absurd ((hmem x).mp (List.mem_cons_self _ _)) (List.not_mem_nil _)
    | cons y l₂ =>
      rw [List.pairwise_cons] at h₁ h₂
      have hxy : x = y := by
        have hx := (hmem x).mp (List.mem_cons_self _ _)
        have hy := (hmem y).mpr (List.mem_cons_self _ _)
        rcases List.mem_cons.mp hx with h | h
        · exact h
        · rcases List.mem_cons.mp hy with h2 | h2
          · exact h2.symm
          · have a := h₂.1 x h
            have b := h₁.1 y h2
            rw [int32.lt_def] at a b
            omega
      subst hxy
      congr 1
      apply ih l₂ h₁.2 h₂.2
      intro e
      constructor
      · intro he
        rcases List.mem_cons.mp ((hmem e).mp (List.mem_cons_of_mem _ he)) with h | h
        · subst h
          have := h₁.1 e he
          rw [int32.lt_def] at this
          omega
        · exact h
      · intro he
        rcases List.mem_cons.mp ((hmem e).mpr (List.mem_cons_of_mem _ he)) with h | h
        · subst h
          have := h₂.1 e he
          rw [int32.lt_def] at this
          omega
        · exact h

theorem step_right_comm (ops : CountOps Count) (op : Count → Count → Count)
    (val : Contribution Count → Count) (empty : Count)
    (hcomm : ∀ a b, op a b = op b a) (hassoc : ∀ a b c, op (op a b) c = op a (op b c))
    (hmerge : ∀ c x, merge ops c x = op c (val x))
    (hseed : ∀ x, seed ops x = merge ops empty x) (w : int32) :
    RightCommutative (step ops w) := by
  have hswap : ∀ c x y, merge ops (merge ops c x) y = merge ops (merge ops c y) x := by
    intro c x y
    rw [hmerge, hmerge, hmerge, hmerge, hassoc, hassoc, hcomm (val x)]
  constructor
  intro o e₁ e₂
  unfold step
  by_cases h1 : e₁.1 = w <;> by_cases h2 : e₂.1 = w
  · cases o with
    | none => simp only [if_pos h1, if_pos h2, hseed, hswap]
    | some c => simp only [if_pos h1, if_pos h2, hswap]
  · simp only [if_pos h1, if_neg h2]
  · simp only [if_neg h1, if_pos h2]
  · simp only [if_neg h1, if_neg h2]

theorem freshIndex_keys (ws : List int32) : ∀ n, (freshIndex n ws).map Prod.fst = ws := by
  induction ws with
  | nil => intro n; rfl
  | cons w ws ih => intro n; rw [freshIndex, List.map_cons, ih]

theorem freshIndex_length (ws : List int32) : ∀ n, (freshIndex n ws).length = ws.length := by
  induction ws with
  | nil => intro n; rfl
  | cons w ws ih => intro n; rw [freshIndex, List.length_cons, List.length_cons, ih]

theorem freshIndex_mem (ws : List int32) :
    ∀ (n k : Nat) (hk : k < ws.length),
      (ws.get ⟨k, hk⟩, int32.wrap ((n + k : Nat) : Int)) ∈ freshIndex n ws := by
  induction ws with
  | nil => intro n k hk; exact absurd hk (Nat.not_lt_zero _)
  | cons w ws ih =>
    intro n k hk
    rw [freshIndex]
    cases k with
    | zero => exact List.mem_cons_self _ _
    | succ k =>
      have hk2 : k < ws.length := Nat.lt_of_succ_lt_succ hk
      have h := ih (n + 1) k hk2
      have e : n + 1 + k = n + (k + 1) := by omega
      rw [e] at h
      exact List.mem_cons_of_mem _ h

theorem fresh_addAll (ops : CountOps Count) (es : List (int32 × Contribution Count)) :
    ∀ b : GeneralLmStateBuilder Count, (es.map Prod.fst).Nodup →
      (∀ e ∈ es, e.1 ∉ b.word_to_pos.map Prod.fst) →
      addAll ops es b =
        some ⟨b.word_to_pos ++ freshIndex b.counts.length (es.map Prod.fst),
          b.counts ++ es.map fun e => seed ops e.2⟩ := by
  induction es with
  | nil =>
    intro b _ _
    rw [addAll, List.map_nil, List.map_nil, freshIndex, List.append_nil, List.append_nil]
  | cons e es ih =>
    intro b nd hfresh
    rw [List.map_cons, List.nodup_cons] at nd
    have hl : b.word_to_pos.lookup e.1 = none :=
      (lookup_eq_none_iff e.1 _).mpr (hfresh e (List.mem_cons_self _ _))
    have hfresh2 : ∀ e2 ∈ es, e2.1 ∉
        (b.word_to_pos ++ [(e.1, int32.wrap (b.counts.length : Int))]).map Prod.fst := by
      intro e2 he2 hmem
      rw [List.map_append, List.mem_append] at hmem
      rcases hmem with h | h
      · exact hfresh e2 (List.mem_cons_of_mem _ he2) h
      · rw [List.map_cons, List.map_nil, List.mem_singleton] at h
        exact nd.1 (by rw [← h]; exact List.mem_map_of_mem Prod.fst he2)
    rw [addAll, addWith_absent _ _ b e.1 hl, Option.some_bind, ih _ nd.2 hfresh2]
    rw [List.map_cons, List.map_cons, freshIndex, List.length_append, List.length_singleton,
      List.append_assoc, List.append_assoc, List.singleton_append, List.singleton_append]

theorem fresh_addAll_create (ops : CountOps Count) (es : List (int32 × Contribution Count))
    (nd : (es.map Prod.fst).Nodup) :
    addAll ops es create =
      some ⟨freshIndex 0 (es.map Prod.fst), es.map fun e => seed ops e.2⟩ := by
  have h := fresh_addAll ops es create nd (fun _ _ hm => absurd hm (List.not_mem_nil _))
  rw [h]
  rfl

theorem addAll_abort (ops : CountOps Count) (w : int32) (x y : Contribution Count)
    (es : List (int32 × Contribution Count)) (hnd : (es.map Prod.fst).Nodup)
    (hw : w ∉ es.map Prod.fst) (hlen : es.length = 2147483647) :
    (addAll ops ((w, x) :: es) create).isSome = true ∧
      addAll ops ((w, x) :: (es ++ [(w, y)])) create = none := by
  have nd : (((w, x) :: es).map Prod.fst).Nodup := by
    rw [List.map_cons]; exact List.nodup_cons.mpr ⟨hw, hnd⟩
  have hf := fresh_addAll_create ops ((w, x) :: es) nd
  refine ⟨by rw [hf]; rfl, ?_⟩
  have hl : (freshIndex 0 (((w, x) :: es).map Prod.fst)).lookup w
      = some (int32.wrap ((0 : Nat) : Int)) := by
    rw [List.map_cons, freshIndex]
    simp [List.lookup]
  have heq : (((w, x) :: es).map fun e => seed ops e.2).length = 2147483648 := by
    rw [List.length_map, List.length_cons, hlen]
  have hfull := addWith_full (seed ops y) (fun c => merge ops c y)
    (⟨freshIndex 0 (((w, x) :: es).map Prod.fst), ((w, x) :: es).map fun e => seed ops e.2⟩ :
      GeneralLmStateBuilder Count) w _ hl heq
  rw [← List.cons_append, addAll_append, hf, Option.some_bind, addAll, hfull]
  rfl

theorem addAll_repeat_first (ops : CountOps Count) (w : int32) (x y : Contribution Count)
    (es : List (int32 × Contribution Count)) (hlen : es.length = 2147483647) :
    ∃ out, (addAll ops ((w, x) :: (w, y) :: es) create).bind Output = some out := by
  have hW : [w].dedup.length ≤ 1 := by
    have := (List.dedup_sublist [w]).length_le
    rw [List.length_singleton] at this
    exact this
  obtain ⟨b1, h1, hi1, hk1, _⟩ := addAll_spec_words ops [w] (by omega) [(w, x), (w, y)]
    create Inv.create (fun _ hm => absurd hm (List.not_mem_nil _))
    (by intro k hk; simp at hk; simp [hk])
  have hn1 : b1.counts.length ≤ 1 := by
    have := hi1.length_le_of_subset [w] hk1
    omega
  obtain ⟨b2, h2, hi2, _, _⟩ := addAll_spec ops es b1 hi1 (by rw [hlen]; omega)
  obtain ⟨out, hout, _, _⟩ := Output_spec b2 hi2
  refine ⟨out, ?_⟩
  have hsplit : (w, x) :: (w, y) :: es = [(w, x), (w, y)] ++ es := rfl
  rw [hsplit, addAll_append, h1, Option.some_bind, h2, Option.some_bind, hout]

theorem Output_overflow (counts : List Count) (ws : List int32)
    (hlen : ws.length = 2147483649) :
    Output (⟨freshIndex 0 ws, counts⟩ : GeneralLmStateBuilder Count) = none := by
  have hk : 2147483648 < ws.length := by rw [hlen]; decide
  have hmem := freshIndex_mem ws 0 2147483648 hk
  refine Output_none _ ⟨_, hmem, ?_⟩
  have hneg : (int32.wrap ((0 + 2147483648 : Nat) : Int)).val < 0 := by decide
  exact if_pos hneg

theorem addAll_overflow (ops : CountOps Count) (es : List (int32 × Contribution Count))
    (hnd : (es.map Prod.fst).Nodup) (hlen : es.length = 2147483649) :
    (addAll ops es create).isSome = true ∧ (addAll ops es create).bind Output = none := by
  have hf := fresh_addAll_create ops es hnd
  refine ⟨by rw [hf]; rfl, ?_⟩
  rw [hf, Option.some_bind]
  exact Output_overflow _ _ (by rw [List.length_map, hlen])

theorem flatMap_entries_single {α : Type} (f : α → Call Count)
    (g : α → int32 × Contribution Count) (h : ∀ v, (f v).entries = [g v]) (l : List α) :
    (l.map f).flatMap Call.entries = l.map g := by
  induction l with
  | nil => rfl
  | cons a l ih => rw [List.map_cons, List.flatMap_cons, ih, h, List.map_cons]; rfl

theorem manyWords_length (n : Nat) : (manyWords n).length = n := by
  rw [manyWords, List.length_map, List.length_range]

theorem manyWords_nodup (n : Nat) (hn : n ≤ 4294967296) : (manyWords n).Nodup :=
  range_wrap_nodup n hn

theorem not_mem_manyWords (n k : Nat) (hnk : n ≤ k) (hk : k < 4294967296) :
    int32.wrap (k : Int) ∉ manyWords n := by
  intro hmem
  obtain ⟨i, hi1, hi2⟩ := List.mem_map.mp hmem
  have hlt := List.mem_range.mp hi1
  have := wrap_nat_inj i k (by omega) hk hi2
  omega

end GeneralLmStateBuilder

namespace GeneralLmStateBuilder

variable {Count : Type}

/-! ## GeneralLmStateBuilder: runs of calls over 2^31 and more words -/

theorem map_pair_fst {β : Type} (x : β) (l : List int32) :
    (l.map fun v => (v, x)).map Prod.fst = l := by
  induction l with
  | nil => rfl
  | cons a l ih => rw [List.map_cons, List.map_cons, ih]

theorem run_abort (ops : CountOps Count) (mk : int32 → Call Count) (x : Contribution Count)
    (hmk : ∀ v, (mk v).entries = [(v, x)]) (w : int32) (l : List int32) (hnd : l.Nodup)
    (hw : w ∉ l) (hlen : l.length = 2147483647) :
    (run ops (mk w :: l.map mk) create).isSome = true ∧
      run ops (mk w :: (l.map mk ++ [mk w])) create = none := by
  have he : (l.map mk).flatMap Call.entries = l.map fun v => (v, x) :=
    flatMap_entries_single mk _ hmk l
  have hk := map_pair_fst x l
  obtain ⟨h1, h2⟩ := addAll_abort ops w x x (l.map fun v => (v, x)) (by rw [hk]; exact hnd)
    (by rw [hk]; exact hw) (by rw [List.length_map, hlen])
  constructor
  · rw [run_eq_addAll, List.flatMap_cons, hmk, he, List.singleton_append]
    exact h1
  · rw [run_eq_addAll, List.flatMap_cons, List.flatMap_append, hmk, he, List.flatMap_cons,
      List.flatMap_nil, hmk, List.append_nil, List.singleton_append]
    exact h2

theorem run_repeat_first (ops : CountOps Count) (mk : int32 → Call Count)
    (x : Contribution Count) (hmk : ∀ v, (mk v).entries = [(v, x)]) (w : int32)
    (l : List int32) (hlen : l.length = 2147483647) :
    ∃ out, (run ops (mk w :: mk w :: l.map mk) create).bind Output = some out := by
  have he : (l.map mk).flatMap Call.entries = l.map fun v => (v, x) :=
    flatMap_entries_single mk _ hmk l
  obtain ⟨out, h⟩ := addAll_repeat_first ops w x x (l.map fun v => (v, x))
    (by rw [List.length_map, hlen])
  refine ⟨out, ?_⟩
  rw [run_eq_addAll, List.flatMap_cons, List.flatMap_cons, hmk, he, List.singleton_append,
    List.singleton_append]
  exact h

theorem run_overflow (ops : CountOps Count) (mk : int32 → Call Count)
    (x : Contribution Count) (hmk : ∀ v, (mk v).entries = [(v, x)])
    (l : List int32) (hnd : l.Nodup) (hlen : l.length = 2147483649) :
    (run ops (l.map mk) create).isSome = true ∧
      (run ops (l.map mk) create).bind Output = none := by
  have he : (l.map mk).flatMap Call.entries = l.map fun v => (v, x) :=
    flatMap_entries_single mk _ hmk l
  have hk := map_pair_fst x l
  rw [run_eq_addAll, he]
  exact addAll_overflow ops _ (by rw [hk]; exact hnd) (by rw [List.length_map, hlen])

/-- C3 (amended): merge commutativity.  Assume the accumulator's merge is a commutative and
associative operation `op` (merging a contribution `x` into `c` gives `op c (val x)`) and
that seeding an accumulator from a contribution equals merging the contribution into an
empty accumulator.  Then for every finite sequence of `AddCount` calls (of any overload,
`AddCounts` included) that passes fewer than `2^31` distinct words, on an empty builder,
and every permutation of the sequence, `Output` after the permuted sequence equals `Output`
after the original one, and it is a list. -/
theorem Output_perm (ops : CountOps Count) (op : Count → Count → Count)
    (val : Contribution Count → Count) (empty : Count)
    (hcomm : ∀ a b, op a b = op b a) (hassoc : ∀ a b c, op (op a b) c = op a (op b c))
    (hmerge : ∀ c x, merge ops c x = op c (val x))
    (hseed : ∀ x, seed ops x = merge ops empty x)
    (calls permuted : List (Call Count)) (hperm : List.Perm permuted calls)
    (hwords : ((calls.flatMap Call.entries).map Prod.fst).dedup.length < 2147483648) :
    ∃ out, (run ops calls create).bind Output = some out ∧
      (run ops permuted create).bind Output = some out := by
  have hsub : (permuted.flatMap Call.entries).map Prod.fst ⊆
      (calls.flatMap Call.entries).map Prod.fst :=
    ((List.Perm.flatMap_right Call.entries hperm).map Prod.fst).subset
  obtain ⟨b₁, hrun₁, hi₁, hv₁⟩ := run_spec ops _ hwords calls (List.Subset.refl _)
  obtain ⟨b₂, hrun₂, hi₂, hv₂⟩ := run_spec ops _ hwords permuted hsub
  obtain ⟨out₁, hout₁, hs₁, hm₁⟩ := Output_spec b₁ hi₁
  obtain ⟨out₂, hout₂, hs₂, hm₂⟩ := Output_spec b₂ hi₂
  have hval : ∀ w, value b₂ w = value b₁ w := by
    intro w
    rw [hv₁, hv₂]
    haveI := step_right_comm ops op val empty hcomm hassoc hmerge hseed w
    exact List.Perm.foldl_eq (List.Perm.flatMap_right Call.entries hperm) none
  have heq : out₂ = out₁ := by
    apply strictly_sorted_ext out₂ out₁ hs₂ hs₁
    rintro ⟨w, c⟩
    rw [hm₁, hm₂, hval]
  refine ⟨out₁, by rw [hrun₁, Option.some_bind, hout₁], ?_⟩
  rw [hrun₂, Option.some_bind, hout₂, heq]

/-- Witness for C3: integer accumulators that add up what is merged into them; the calls
`AddCount(5, 2.0f)`, `AddCount(5, 3.0f)`, `AddCount(7, 1.0f)` and the same calls with the
first two, which go to the same word, exchanged. -/
theorem Output_perm_witness :
    ∃ out, (run intOps [.addCount 5 ⟨1073741824⟩, .addCount 5 ⟨1077936128⟩,
        .addCount 7 ⟨1065353216⟩] create).bind Output = some out ∧
      (run intOps [.addCount 5 ⟨1077936128⟩, .addCount 5 ⟨1073741824⟩,
        .addCount 7 ⟨1065353216⟩] create).bind Output = some out :=
  Output_perm intOps (fun a b => a + b) intVal 0
    (fun a b => Int.add_comm a b) (fun a b c => Int.add_assoc a b c)
    (fun c x => by cases x <;> rfl)
    (fun x => by cases x <;> simp [seed, merge, intOps])
    _ _ (List.Perm.swap _ _ _) (by decide)

/-- C3, counterexample: integer accumulators that add up what is merged into them (a
commutative, associative merge).  The calls `AddCount(2147483647, 1.0f)`, `AddCount(v, 1.0f)`
for `v = 0, ..., 2147483646`, `AddCount(2147483647, 1.0f)` fail at the last call, which
finds `2^31` accumulators; with the last call moved to the second place the same calls run
through and `Output` returns a list. -/
theorem Output_perm_counterexample :
    List.Perm
      (Call.addCount 2147483647 ⟨1065353216⟩ :: Call.addCount 2147483647 ⟨1065353216⟩ ::
        (manyWords 2147483647).map (fun v => (Call.addCount v ⟨1065353216⟩ : Call Int)))
      (Call.addCount 2147483647 ⟨1065353216⟩ ::
        ((manyWords 2147483647).map (fun v => (Call.addCount v ⟨1065353216⟩ : Call Int)) ++
          [Call.addCount 2147483647 ⟨1065353216⟩])) ∧
    (run intOps (Call.addCount 2147483647 ⟨1065353216⟩ ::
      ((manyWords 2147483647).map (fun v => Call.addCount v ⟨1065353216⟩) ++
        [Call.addCount 2147483647 ⟨1065353216⟩])) create).bind Output = none ∧
    ((run intOps (Call.addCount 2147483647 ⟨1065353216⟩ ::
      Call.addCount 2147483647 ⟨1065353216⟩ ::
        (manyWords 2147483647).map (fun v => Call.addCount v ⟨1065353216⟩)) create).bind
      Output).isSome = true := by
  refine ⟨(List.perm_append_singleton _ _).symm.cons _, ?_, ?_⟩
  · have h := (run_abort intOps (fun v => Call.addCount v ⟨1065353216⟩)
      (Contribution.raw ⟨1065353216⟩) (fun _ => rfl) 2147483647 (manyWords 2147483647)
      (manyWords_nodup _ (by decide))
      (not_mem_manyWords 2147483647 2147483647 (Nat.le_refl _) (by decide))
      (manyWords_length _)).2
    rw [h]
    rfl
  · obtain ⟨out, h⟩ := run_repeat_first intOps (fun v => Call.addCount v ⟨1065353216⟩)
      (Contribution.raw ⟨1065353216⟩) (fun _ => rfl) 2147483647 (manyWords 2147483647)
      (manyWords_length _)
    rw [h]
    rfl

/-- C4, counterexample: `Output` on a newly constructed builder (integer accumulators)
does not fail; it returns the empty list. -/
theorem Output_create_counterexample :
    Output (create : GeneralLmStateBuilder Int) = some [] := by
  decide

/-- C4 (amended): `Output` on an Empty builder, one that is newly constructed or was
cleared and has received no call since, succeeds and returns the empty list. -/
theorem Output_empty (S : GeneralLmStateBuilder Count) :
    Output (create : GeneralLmStateBuilder Count) = some [] ∧
    Output (Clear S) = some [] :=
  ⟨rfl, rfl⟩

/-- C9: reuse isolation.  For every builder state `S` and every sequence `C` of
`AddCount`/`AddCounts` calls, `Clear` followed by `C` gives the same `Output` as `C` on a
newly constructed builder: the same list, or in both cases none because the same assertion
fails.  When `C` passes fewer than `2^31` distinct words it is a list. -/
theorem Output_after_Clear (ops : CountOps Count) (S : GeneralLmStateBuilder Count)
    (C : List (Call Count)) :
    (run ops C (Clear S)).bind Output = (run ops C create).bind Output ∧
    (((C.flatMap Call.entries).map Prod.fst).dedup.length < 2147483648 →
      ∃ out, (run ops C (Clear S)).bind Output = some out) := by
  refine ⟨rfl, fun hwords => ?_⟩
  obtain ⟨b, hrun, hi, _⟩ := run_spec ops _ hwords C (List.Subset.refl _)
  obtain ⟨out, hout, _, _⟩ := Output_spec b hi
  refine ⟨out, ?_⟩
  have h : (run ops C create).bind Output = some out := by
    rw [hrun, Option.some_bind, hout]
  exact h

/-- Witness for C9: integer accumulators, a builder that held word 9, and the calls
`AddCount(7, 1.0f)`, `AddCount(5, 2.0f)`. -/
theorem Output_after_Clear_witness :
    (run intOps [.addCount 7 ⟨1065353216⟩, .addCount 5 ⟨1073741824⟩]
        (Clear ⟨[(9, 0)], [4]⟩)).bind Output =
      (run intOps [.addCount 7 ⟨1065353216⟩, .addCount 5 ⟨1073741824⟩] create).bind Output ∧
    ∃ out, (run intOps [.addCount 7 ⟨1065353216⟩, .addCount 5 ⟨1073741824⟩]
        (Clear ⟨[(9, 0)], [4]⟩)).bind Output = some out :=
  ⟨(Output_after_Clear intOps ⟨[(9, 0)], [4]⟩ _).1,
    (Output_after_Clear intOps ⟨[(9, 0)], [4]⟩ _).2 (by decide)⟩

end GeneralLmStateBuilder

namespace GeneralLmStateBuilder

variable {Count : Type}

/-! ## C14: the worked example -/

/-- C14: on an empty builder, `AddCount(5, 2.0f)`, `AddCount(5, 3.0f)`, `AddCount(7, 1.0f)`
make `Output` return exactly two entries, word 5 then word 7; the accumulator of word 5 is
the one seeded from `2.0f` with `3.0f` merged in, the accumulator of word 7 is the one
seeded from `1.0f`.  This holds for every implementation of `Count`. -/
theorem Output_worked_example (ops : CountOps Count) :
    (run ops [.addCount 5 ⟨1073741824⟩, .addCount 5 ⟨1077936128⟩, .addCount 7 ⟨1065353216⟩]
      create).bind Output =
    some [(5, ops.addFloat (ops.ofFloat ⟨1073741824⟩) ⟨1077936128⟩),
      (7, ops.ofFloat ⟨1065353216⟩)] := by
  have h57 : (5 : int32) ≠ 7 := by decide
  have h75 : (7 : int32) ≠ 5 := by decide
  have hlt : (5 : int32) < 7 := by decide
  obtain ⟨b, hrun, hi, hv⟩ := run_spec ops [5, 7] (by decide)
    [.addCount 5 ⟨1073741824⟩, .addCount 5 ⟨1077936128⟩, .addCount 7 ⟨1065353216⟩]
    (by
      intro a ha
      simp only [List.flatMap_cons, List.flatMap_nil, Call.entries, List.singleton_append,
        List.append_nil, List.map_cons, List.map_nil, List.mem_cons, List.mem_singleton] at ha
      rcases ha with h | h | h | h
      · rw [h]; exact List.mem_cons_self _ _
      · rw [h]; exact List.mem_cons_self _ _
      · rw [h]; exact List.mem_cons_of_mem _ (List.mem_cons_self _ _)
      · exact absurd h (List.not_mem_nil _))
  obtain ⟨out, hout, hs, hm⟩ := Output_spec b hi
  have heq : out = [(5, ops.addFloat (ops.ofFloat ⟨1073741824⟩) ⟨1077936128⟩),
      (7, ops.ofFloat ⟨1065353216⟩)] := by
    apply strictly_sorted_ext out _ hs
    · exact List.pairwise_pair.mpr hlt
    · rintro ⟨w, c⟩
      rw [hm, hv]
      simp only [List.flatMap_cons, List.flatMap_nil, Call.entries, List.singleton_append,
        List.append_nil, List.foldl_cons, List.foldl_nil, step, List.mem_cons,
        List.mem_singleton, Prod.mk.injEq, List.not_mem_nil, or_false]
      by_cases h5 : w = 5
      · subst h5
        simp [h57, h75, seed, merge, eq_comm]
      · by_cases h7 : w = 7
        · subst h7
          simp [h57, h75, seed, merge, eq_comm]
        · have h5b : ¬ (5 : int32) = w := fun h => h5 h.symm
          have h7b : ¬ (7 : int32) = w := fun h => h7 h.symm
          simp [h5, h7, h5b, h7b]
  rw [hrun, Option.some_bind, hout, heq]

/-! ## C15: AddCounts of an Int record -/

/-- C15: rescale equivalence.  For every builder state `b`, every `IntLmState` `r` and every
scale `s`, `AddCounts(r, s)` leaves the builder in the same state (same index, same list of
accumulators; or the same failure) as calling `AddCount(w, s, c)` once for each entry
`(w, c)` of `r.counts`, in list order. -/
theorem AddCounts_eq_AddCount_each (ops : CountOps Count) (b : GeneralLmStateBuilder Count)
    (r : IntLmState) (s : float) :
    AddCounts ops b r s =
      run ops (r.counts.map fun e => Call.addCountScaled e.1 s e.2) b := by
  rw [AddCounts]
  generalize r.counts = cs
  induction cs generalizing b with
  | nil => rfl
  | cons c cs ih =>
    simp only [AddCountsLoop, List.map_cons, run, Call.apply]
    cases AddCountScaled ops b c.1 s c.2 with
    | none => rfl
    | some b1 => exact ih b1

/-! ## C16: AddCount touches only its own word -/

theorem map_val_wrap_range (n : Nat) (hn : n ≤ 2147483648) :
    ((List.range n).map fun i : Nat => int32.wrap (i : Int)).map int32.val =
      (List.range n).map fun i : Nat => (i : Int) := by
  rw [List.map_map]
  apply List.map_congr_left
  intro i hmem
  have hlt := List.mem_range.mp hmem
  rw [Function.comp_apply]
  exact wrap_nat_val i (by omega)

theorem Inv.positions {b : GeneralLmStateBuilder Count} (hi : Inv b) :
    b.word_to_pos.map (fun p => p.2.val) =
      (List.range b.counts.length).map fun i : Nat => (i : Int) := by
  have h : b.word_to_pos.map (fun p => p.2.val) =
      (b.word_to_pos.map Prod.snd).map int32.val := by
    rw [List.map_map]; rfl
  rw [h, hi.2.1]
  exact map_val_wrap_range _ hi.2.2

/-- C17 (amended): builder representation invariant.  In every state that is reached from an
empty builder by `AddCount`, `AddCounts` and `Clear` steps and holds at most `2^31`
accumulators, `word_to_pos` and `counts` have the same size `n`, the words of the index are
distinct and its positions are exactly `0..n-1`, each once.  In such a state `Output` passes
its assertion and finds every `counts[pairs[i].second]` in range: it returns a list.  When
the state holds fewer than `2^31` accumulators, every `AddCount` call (each of the three
overloads, for every word) passes its assertion `pos < cur_counts_size`. -/
theorem reachable_invariant (ops : CountOps Count) (steps : List (Step Count))
    (b : GeneralLmStateBuilder Count) (hreach : runSteps ops steps create = some b)
    (hsize : b.counts.length ≤ 2147483648) :
    b.counts.length = b.word_to_pos.length ∧
    (b.word_to_pos.map Prod.fst).Nodup ∧
    (b.word_to_pos.map fun p => p.2.val).Perm
      ((List.range b.counts.length).map fun i : Nat => (i : Int)) ∧
    (∀ p ∈ b.word_to_pos, 0 ≤ p.2.val ∧ p.2.val < b.counts.length) ∧
    (∃ out, Output b = some out) ∧
    (b.counts.length < 2147483648 →
      (∀ word count, ∃ b2, AddCount ops b word count = some b2) ∧
      (∀ word scale num_pieces, ∃ b2, AddCountScaled ops b word scale num_pieces = some b2) ∧
      (∀ word count, ∃ b2, AddCountCount ops b word count = some b2)) := by
  have hi : Inv b := reachable_inv ops steps b hreach hsize
  refine ⟨hi.length_eq.symm, hi.1, ?_, ?_, ?_, ?_⟩
  · rw [hi.positions]
  · intro p hp
    obtain ⟨i, hlt, hpv⟩ := hi.pos_spec (w := p.1) (p := p.2) hp
    rw [hpv]
    exact ⟨Int.natCast_nonneg i, by exact_mod_cast hlt⟩
  · obtain ⟨out, h, _⟩ := Output_spec b hi
    exact ⟨out, h⟩
  · intro hlt
    refine ⟨?_, ?_, ?_⟩
    · intro word count
      obtain ⟨b2, h, _⟩ :=
        addWith_spec (ops.ofFloat count) (fun c => ops.addFloat c count) b word hi hlt
      exact ⟨b2, h⟩
    · intro word scale num_pieces
      obtain ⟨b2, h, _⟩ := addWith_spec (ops.ofPieces scale num_pieces)
        (fun c => ops.addPieces c scale num_pieces) b word hi hlt
      exact ⟨b2, h⟩
    · intro word count
      obtain ⟨b2, h, _⟩ := addWith_spec count (fun c => ops.add c count) b word hi hlt
      exact ⟨b2, h⟩

/-- Witness for C17: integer accumulators; the state after `AddCount(5, 2.0f)`, `Clear`,
`AddCount(7, 1.0f)`, `AddCount(3, 2.0f)`, `AddCount(7, 3.0f)`. -/
theorem reachable_invariant_witness :
    (2 : Nat) = ([(7, 0), (3, 1)] : List (int32 × int32)).length ∧
    (([(7, 0), (3, 1)] : List (int32 × int32)).map Prod.fst).Nodup ∧
    (([(7, 0), (3, 1)] : List (int32 × int32)).map fun p => p.2.val).Perm
      ((List.range 2).map fun i : Nat => (i : Int)) ∧
    (∀ p ∈ ([(7, 0), (3, 1)] : List (int32 × int32)), 0 ≤ p.2.val ∧ p.2.val < (2 : Nat)) ∧
    (∃ out, Output (⟨[(7, 0), (3, 1)], [2143289344, 1073741824]⟩ :
      GeneralLmStateBuilder Int) = some out) ∧
    ((2 : Nat) < 2147483648 →
      (∀ word count, ∃ b2, AddCount intOps
        ⟨[(7, 0), (3, 1)], [2143289344, 1073741824]⟩ word count = some b2) ∧
      (∀ word scale num_pieces, ∃ b2, AddCountScaled intOps
        ⟨[(7, 0), (3, 1)], [2143289344, 1073741824]⟩ word scale num_pieces = some b2) ∧
      (∀ word count, ∃ b2, AddCountCount intOps
        ⟨[(7, 0), (3, 1)], [2143289344, 1073741824]⟩ word count = some b2)) :=
  reachable_invariant intOps
    [.call (.addCount 5 ⟨1073741824⟩), .clear, .call (.addCount 7 ⟨1065353216⟩),
      .call (.addCount 3 ⟨1073741824⟩), .call (.addCount 7 ⟨1077936128⟩)]
    ⟨[(7, 0), (3, 1)], [2143289344, 1073741824]⟩ rfl (by decide)

/-- C17, counterexample: integer accumulators; `AddCount(v, 1.0f)` for the `2^31 + 1` words
`v = 0, 1, ..., 2147483647, -2147483648` (the `int32` values of `0..2^31`) runs through,
each word being new.  The last word is stored with position `cur_counts_size = -2^31`,
which is not one of `0..n-1`, and `Output` indexes `counts` with it, outside the vector. -/
theorem reachable_invariant_counterexample :
    (runSteps intOps (((manyWords 2147483649).map fun v =>
      Call.addCount v ⟨1065353216⟩).map Step.call) create).isSome = true ∧
    (runSteps intOps (((manyWords 2147483649).map fun v =>
      Call.addCount v ⟨1065353216⟩).map Step.call) create).bind Output = none := by
  rw [runSteps_calls]
  exact run_overflow intOps (fun v => Call.addCount v ⟨1065353216⟩)
    (Contribution.raw ⟨1065353216⟩) (fun _ => rfl) (manyWords 2147483649)
    (manyWords_nodup _ (by decide)) (manyWords_length _)

/-! ## C19: folding one sorted record into an empty builder -/

end GeneralLmStateBuilder

end pocolm
